import Mathlib

/-!
Verification of the ModulemdTranslationHelpers / mmdzanata repository against
its natural-language specification.

The visible source is `mmdzanata/cli.py` (CLI plumbing: the Koji rawhide
version lookup with its retry loop, the Fedora tag list, the `extract` and
`generate_metadata` subcommands) together with a package `__init__.py`.
The core transformation functions (`get_module_catalog_from_tags`,
`get_modulemd_translations`, the catalog builder, the translation
reconstructor, and the shared context-key codec) are not part of the visible
source; where a claim depends on them they are modelled from the
specification, as marked in their doc comments.

Python strings are modelled as `List Char`; Python exceptions as explicit
error values in `Except`; the side effects of the CLI subcommands as
explicit event traces.
-/

/-- Python strings in the model. -/
abbrev Str : Type := List Char

deriving instance DecidableEq for Except

/-! ## Embedding of `mmdzanata/cli.py` -/

/-- `get_tags_for_fedora_branch(branch)` from `cli.py`: the nine
modular Koji tag names derived from a branch name. -/
def get_tags_for_fedora_branch (branch : String) : List String :=
  [branch ++ "-modular",
   branch ++ "-modular-override",
   branch ++ "-modular-pending",
   branch ++ "-modular-signing-pending",
   branch ++ "-modular-updates",
   branch ++ "-modular-updates-candidate",
   branch ++ "-modular-updates-pending",
   branch ++ "-modular-updates-testing",
   branch ++ "-modular-updates-testing-pending"]

/-- Python `s.partition(pat)[0]`: the portion of `s` before the first
occurrence of `pat`, or all of `s` when `pat` does not occur. -/
def partitionHead (pat : Str) : Str → Str
  | [] => []
  | c :: rest =>
    if pat.isPrefixOf (c :: rest) then []
    else c :: partitionHead pat rest

/-- A Koji build target, as accessed by `get_fedora_rawhide_version`:
only its `build_tag_name` entry is read. -/
structure BuildTarget where
  build_tag_name : Str
deriving DecidableEq

/-- The exception kinds the embedded `get_fedora_rawhide_version` can
raise: the (caught) `requests.exceptions.ConnectionError` from
`session.getBuildTargets`, the `UnboundLocalError` from reading
`build_targets` when no attempt assigned it, and the `IndexError` from
`build_targets[0]` on an empty list. -/
inductive PyErr
  | connectionError
  | unboundLocal
  | indexError
deriving DecidableEq

/-- The outcome of one `session.getBuildTargets('rawhide')` call: either a
list of build targets or a raised connection error. -/
inductive KojiResult
  | ok (targets : List BuildTarget)
  | connError
deriving DecidableEq

/-- A Koji session, modelled by the outcome of its `k`-th
`getBuildTargets('rawhide')` call. -/
abbrev Session : Type := Nat → KojiResult

/-- The retry loop of `get_fedora_rawhide_version`: starting at attempt
`start` with `fuel` attempts remaining, the value of `build_targets` after
the loop (`none` when every attempt raised a connection error, so that the
variable was never assigned). -/
def retryLoop (session : Session) (start : Nat) : Nat → Option (List BuildTarget)
  | 0 => none
  | fuel + 1 =>
    match session start with
    | .ok targets => some targets
    | .connError => retryLoop session (start + 1) fuel

/-- `get_fedora_rawhide_version(session)` from `cli.py`: retry
`session.getBuildTargets('rawhide')` up to 5 times, swallowing connection
errors, then return `build_targets[0]['build_tag_name'].partition('-build')[0]`.
When all 5 attempts raised a connection error the variable `build_targets`
was never assigned, so the final statement raises `UnboundLocalError`. -/
def get_fedora_rawhide_version (session : Session) : Except PyErr Str :=
  match retryLoop session 0 5 with
  | none => .error .unboundLocal
  | some [] => .error .indexError
  | some (t :: _) => .ok (partitionHead ('-' :: 'b' :: 'u' :: 'i' :: 'l' :: 'd' :: []) t.build_tag_name)

/-- A session for which every `getBuildTargets` call raises a transient
connection error. -/
def allFailSession : Session := fun _ => .connError

/-! ## Shared context-key codec (spec §4.3) -/

/-- Modelled from the spec: the shared context-key codec of §4.3 is not in
the visible source (it lives in the `mmdzanata`/`ModulemdTranslationHelpers.Utils`
modules). The delimiter of the key encoding. -/
def sep : Char := ';'

/-- A component (module name, stream, context, profile name) is legal when
it does not contain the key delimiter, per §4.3: the delimiter scheme
"cannot be produced by legal module names, streams, contexts, or profile
names". -/
def LegalStr (s : Str) : Prop := sep ∉ s

instance (s : Str) : Decidable (LegalStr s) := by
  unfold LegalStr; infer_instance

/-- ModuleIdentity (spec §3): the (name, stream, context) triple. -/
structure ModuleIdentity where
  name : Str
  stream : Str
  context : Str
deriving DecidableEq

/-- A legal module identity: every component avoids the key delimiter. -/
def LegalId (id : ModuleIdentity) : Prop :=
  LegalStr id.name ∧ LegalStr id.stream ∧ LegalStr id.context

instance (id : ModuleIdentity) : Decidable (LegalId id) := by
  unfold LegalId; infer_instance

/-- The field kinds of a TranslatableField (spec §3): summary, description,
or a named profile description. -/
inductive FieldKind
  | summary
  | description
  | profile (pname : Str)
deriving DecidableEq

/-- A legal field kind: a profile name avoids the key delimiter. -/
def LegalKind : FieldKind → Prop
  | .summary => True
  | .description => True
  | .profile p => LegalStr p

instance (k : FieldKind) : Decidable (LegalKind k) := by
  cases k <;> (unfold LegalKind; infer_instance)

/-- The tag parts naming a field kind inside a context key. -/
def kindParts : FieldKind → List Str
  | .summary => "summary".data :: []
  | .description => "description".data :: []
  | .profile p => "profile".data :: p :: []

/-- Join a nonempty list of components with the delimiter. -/
def joinSep : List Str → Str
  | [] => []
  | x :: [] => x
  | x :: y :: rest => x ++ sep :: joinSep (y :: rest)

/-- Split a key on the delimiter (inverse of `joinSep` on legal parts). -/
def splitSep : Str → List Str
  | [] => [] :: []
  | c :: rest =>
    if c = sep then [] :: splitSep rest
    else
      match splitSep rest with
      | [] => (c :: []) :: []
      | p :: ps => (c :: p) :: ps

/-- Modelled from the spec: `encode(identity, field_kind, profile?)` of
§4.3, derived from (module name, stream, context, field kind, profile name
where applicable) per §3, joined with a delimiter that legal components
cannot contain. -/
def encode (id : ModuleIdentity) (k : FieldKind) : Str :=
  joinSep (id.name :: id.stream :: id.context :: kindParts k)

/-- The error raised by `decode` on a key not produced by `encode`
(spec §4.3, §7: `MalformedKey`). -/
inductive CodecErr
  | malformedKey (key : Str)
deriving DecidableEq

/-- Modelled from the spec: `decode(key)` of §4.3, the exact inverse of
`encode`; fails with `MalformedKey` on any key not produced by `encode`. -/
def decode (s : Str) : Except CodecErr (ModuleIdentity × FieldKind) :=
  match splitSep s with
  | n :: st :: c :: t :: [] =>
    if LegalStr n ∧ LegalStr st ∧ LegalStr c then
      if t = "summary".data then .ok (⟨n, st, c⟩, .summary)
      else if t = "description".data then .ok (⟨n, st, c⟩, .description)
      else .error (.malformedKey s)
    else .error (.malformedKey s)
  | n :: st :: c :: t :: p :: [] =>
    if LegalStr n ∧ LegalStr st ∧ LegalStr c ∧ LegalStr p then
      if t = "profile".data then .ok (⟨n, st, c⟩, .profile p)
      else .error (.malformedKey s)
    else .error (.malformedKey s)
  | _ => .error (.malformedKey s)

/-! ## Catalog data model and Catalog Builder (spec §3, §4.1) -/

/-- TranslatableField (spec §3): owning identity, field kind (with profile
name folded into the kind), and default-locale source text. -/
structure TranslatableField where
  identity : ModuleIdentity
  kind : FieldKind
  text : Str
deriving DecidableEq

/-- A field whose identity and kind components are all legal. -/
def LegalField (f : TranslatableField) : Prop :=
  LegalId f.identity ∧ LegalKind f.kind

instance (f : TranslatableField) : Decidable (LegalField f) := by
  unfold LegalField; infer_instance

/-- The context key of a field (spec §3, MessageContext). -/
def fieldKey (f : TranslatableField) : Str := encode f.identity f.kind

/-- Empty or whitespace-only source text, skipped by the builder
(spec §4.1 input constraint). -/
def isBlank (s : Str) : Bool := s.all Char.isWhitespace

/-- CatalogEntry (spec §3): context key, source text, location references,
and (locale, translated text) pairs. -/
structure CatalogEntry where
  key : Str
  source : Str
  locations : List Str
  translations : List (Str × Str)
deriving DecidableEq

/-- The builder's error (spec §4.1, §7): two fields with the same context
key but different source text, identified by both locations. -/
inductive BuildErr
  | conflictingSource (loc1 loc2 : Str)
deriving DecidableEq

/-- Modelled from the spec: one step of the Catalog Builder of §4.1 (not in
the visible source). Look for an entry with the same context key: identical
(key, source) appends the new location reference; same key with different
source fails with `ConflictingSource` identifying both locations; otherwise
a fresh entry is created whose location reference is the key. -/
def addField (key text : Str) : List CatalogEntry → Except BuildErr (List CatalogEntry)
  | [] => .ok (⟨key, text, key :: [], []⟩ :: [])
  | e :: rest =>
    if e.key = key then
      if e.source = text then
        .ok ({ e with locations := e.locations ++ key :: [] } :: rest)
      else .error (.conflictingSource (e.locations.headD e.key) key)
    else Except.map (e :: ·) (addField key text rest)

/-- Modelled from the spec: the Catalog Builder's accumulation loop of
§4.1, skipping empty/whitespace-only source text fields. -/
def buildFold : List TranslatableField → List CatalogEntry → Except BuildErr (List CatalogEntry)
  | [], acc => .ok acc
  | f :: fs, acc =>
    if isBlank f.text then buildFold fs acc
    else
      match addField (fieldKey f) f.text acc with
      | .error e => .error e
      | .ok acc2 => buildFold fs acc2

/-- The primary location reference of an entry (spec §4.1 output
ordering). -/
def primaryLoc (e : CatalogEntry) : Str := e.locations.headD e.key

/-- Lexicographic order on entries by primary location reference. -/
def entryLe (a b : CatalogEntry) : Prop := primaryLoc a ≤ primaryLoc b

instance : DecidableRel entryLe := fun a b =>
  inferInstanceAs (Decidable (primaryLoc a ≤ primaryLoc b))

instance : IsTotal CatalogEntry entryLe := ⟨fun a b => le_total (primaryLoc a) (primaryLoc b)⟩

instance : IsTrans CatalogEntry entryLe := ⟨fun _ _ _ hab hbc => le_trans hab hbc⟩

/-- Modelled from the spec: `build_catalog` of §4.1 (not in the visible
source): accumulate entries, then sort by the lexicographic order of their
primary location reference. -/
def build_catalog (fields : List TranslatableField) : Except BuildErr (List CatalogEntry) :=
  Except.map (fun cat => List.insertionSort entryLe cat) (buildFold fields [])

/-! ## Translation Reconstructor (spec §3, §4.2) -/

/-- One reconstructed record: a ModuleIdentity, a locale, and the
LocaleTranslation map from field kind to translated text (spec §3,
LocaleTranslation; a TranslationSet is a list of these). -/
structure TransRecord where
  identity : ModuleIdentity
  locale : Str
  fields : List (FieldKind × Str)
deriving DecidableEq

/-- The reconstructor's errors (spec §4.2, §7): an ambiguous translation
naming identity, locale and field, or a malformed location key. -/
inductive ReconErr
  | ambiguousTranslation (id : ModuleIdentity) (locale : Str) (kind : FieldKind)
  | malformedKey (key : Str)
deriving DecidableEq

/-- Look up a field slot in a LocaleTranslation map. -/
def lookupSlot : List (FieldKind × Str) → FieldKind → Option Str
  | [], _ => none
  | (k2, v) :: rest, k => if k2 = k then some v else lookupSlot rest k

/-- Modelled from the spec: insert one translated text into the
accumulating TranslationSet (spec §4.2): find the record for (identity,
locale), then fill the field slot; identical duplicate text merges
silently, differing text fails with `AmbiguousTranslation`. -/
def insertSlot (id : ModuleIdentity) (locale : Str) (k : FieldKind) (t : Str) :
    List TransRecord → Except ReconErr (List TransRecord)
  | [] => .ok (⟨id, locale, (k, t) :: []⟩ :: [])
  | r :: rest =>
    if r.identity = id ∧ r.locale = locale then
      match lookupSlot r.fields k with
      | none => .ok ({ r with fields := r.fields ++ (k, t) :: [] } :: rest)
      | some t2 =>
        if t2 = t then .ok (r :: rest)
        else .error (.ambiguousTranslation id locale k)
    else Except.map (r :: ·) (insertSlot id locale k t rest)

/-- Modelled from the spec: decode one location reference and insert the
translated text (spec §4.2); an undecodable reference fails with
`MalformedKey`. -/
def processLoc (locale ttext : Str) (l : Str) (recs : List TransRecord) :
    Except ReconErr (List TransRecord) :=
  match decode l with
  | .error _ => .error (.malformedKey l)
  | .ok (id, k) => insertSlot id locale k ttext recs

/-- Modelled from the spec: fold one (locale, text) pair over every
location reference of an entry (spec §4.2). -/
def processLocs (locale ttext : Str) : List Str → List TransRecord → Except ReconErr (List TransRecord)
  | [], recs => .ok recs
  | l :: ls, recs =>
    match processLoc locale ttext l recs with
    | .error e => .error e
    | .ok recs2 => processLocs locale ttext ls recs2

/-- Modelled from the spec: fold every (locale, translated text) pair of an
entry, skipping empty translated text (spec §4.2). -/
def processTrans (locations : List Str) : List (Str × Str) → List TransRecord → Except ReconErr (List TransRecord)
  | [], recs => .ok recs
  | (locale, ttext) :: ts, recs =>
    if ttext = [] then processTrans locations ts recs
    else
      match processLocs locale ttext locations recs with
      | .error e => .error e
      | .ok recs2 => processTrans locations ts recs2

/-- Modelled from the spec: the Translation Reconstructor's entry loop
(spec §4.2). -/
def reconFold : List CatalogEntry → List TransRecord → Except ReconErr (List TransRecord)
  | [], recs => .ok recs
  | e :: es, recs =>
    match processTrans e.locations e.translations recs with
    | .error err => .error err
    | .ok recs2 => reconFold es recs2

/-- The sort key of a record: (module name, stream, context, locale),
compared lexicographically (spec §4.2 output ordering). -/
def keyList (r : TransRecord) : List Str :=
  r.identity.name :: r.identity.stream :: r.identity.context :: r.locale :: []

/-- Order on records by (module name, stream, context, locale). -/
def recLe (a b : TransRecord) : Prop := keyList a ≤ keyList b

instance : DecidableRel recLe := fun a b =>
  inferInstanceAs (Decidable (keyList a ≤ keyList b))

instance : IsTotal TransRecord recLe := ⟨fun a b => le_total (keyList a) (keyList b)⟩

instance : IsTrans TransRecord recLe := ⟨fun _ _ _ hab hbc => le_trans hab hbc⟩

/-- Modelled from the spec: `reconstruct` of §4.2 (not in the visible
source): accumulate per-(identity, locale) records, then sort by (module
name, stream, context, locale). -/
def reconstruct (cat : List CatalogEntry) : Except ReconErr (List TransRecord) :=
  Except.map (fun recs => List.insertionSort recLe recs) (reconFold cat [])

/-- Assign to every catalog entry, for every locale of `locales`, the
translated text `t entry.key locale` (the translation round trip of
spec §8). -/
def injectAll (locales : List Str) (t : Str → Str → Str) (cat : List CatalogEntry) :
    List CatalogEntry :=
  cat.map (fun e => { e with translations := locales.map (fun l => (l, t e.key l)) })

/-! ## CLI subcommand effect traces (`extract`, `generate_metadata`) -/

/-- The observable effects of the CLI subcommands, in program order:
writing the `.pot` catalog file, dumping the translations YAML, printing a
line to standard output, running the external `zanata-cli` push tool, and
terminating the process via `sys.exit`. -/
inductive Event
  | writeFile (path : String) (catalog : List CatalogEntry)
  | dumpYaml (path : String) (translations : List TransRecord)
  | printOut (msg : String)
  | runTool (args : List String)
  | exitCode (code : Nat)
deriving DecidableEq

/-- The result of `subprocess.run` on the external push tool. -/
structure ToolResult where
  returncode : Nat
  stdoutStr : String
  stderrStr : String
deriving DecidableEq

/-- The catalog order written by `pofile.write_po(f, catalog, sort_by_file=True)`
in `extract`: entries sorted by their file/location references. -/
def potContent (catalog : List CatalogEntry) : List CatalogEntry :=
  List.insertionSort entryLe catalog

/-- The options of the CLI group consumed by `extract`. -/
structure ExtractArgs where
  branch : String
  zanata_url : String
  zanata_project : String
  doc : String
deriving DecidableEq

/-- The argument vector `extract` passes to `subprocess.run` for the
Zanata push (`cli.py` lines 152-156). -/
def zanataArgs (a : ExtractArgs) : List String :=
  "/usr/bin/zanata-cli" :: "-B" :: "-e" :: "push" ::
  "--url" :: a.zanata_url ::
  "--project" :: a.zanata_project ::
  "--project-type" :: "gettext" ::
  "--project-version" :: a.branch :: []

/-- The `extract` subcommand of `cli.py` (lines 128-161), as an effect
trace: write the extracted catalog to `<document>.pot`, print the success
message, then (when uploading) run `zanata-cli push`; on a nonzero return
code print the tool's stderr and stdout and exit with status 1. The
already-fetched module catalog and the tool result are parameters standing
for the external collaborators. -/
def extract (a : ExtractArgs) (catalog : List CatalogEntry) (upload : Bool)
    (result : ToolResult) : List Event :=
  .writeFile (a.doc ++ ".pot") (potContent catalog) ::
  .printOut ("Wrote extracted strings for " ++ a.branch ++ " to " ++ a.doc ++ ".pot") ::
  (if upload then
    .runTool (zanataArgs a) ::
    (if result.returncode ≠ 0 then
      .printOut result.stderrStr :: .printOut result.stdoutStr :: .exitCode 1 :: []
    else [])
  else [])

/-- Python `sorted(translations)` in `generate_metadata`, with the record
order modelled from the spec as (module name, stream, context, locale)
(spec §4.2 output ordering, §6 Metadata Serializer). -/
def sortedRecords (translations : List TransRecord) : List TransRecord :=
  List.insertionSort recLe translations

/-- The `generate_metadata` subcommand of `cli.py` (lines 170-190), as an
effect trace: dump `sorted(translations)` to `<document>.yaml`, then print
the success message. The fetched translations are a parameter standing for
the external `get_modulemd_translations` collaborator. -/
def generate_metadata (doc : String) (translations : List TransRecord) : List Event :=
  .dumpYaml (doc ++ ".yaml") (sortedRecords translations) ::
  .printOut ("Wrote modulemd-translations YAML to " ++ doc ++ ".yaml") :: []

/-- Whether an event writes to the filesystem (file write or YAML dump). -/
def Event.isWrite : Event → Bool
  | .writeFile _ _ => true
  | .dumpYaml _ _ => true
  | _ => false

/-! ## Proof-support definitions -/

/-- The first catalog entry carrying a given context key. -/
def lookupKey : List CatalogEntry → Str → Option CatalogEntry
  | [], _ => none
  | e :: rest, k => if e.key = k then some e else lookupKey rest k

/-- The source text recorded in the catalog under a context key. -/
def keySrc (cat : List CatalogEntry) (k : Str) : Option Str :=
  (lookupKey cat k).map (fun e => e.source)

/-- The source text of the first non-blank field with a given context key
in a field list. -/
def firstSrc : List TranslatableField → Str → Option Str
  | [], _ => none
  | f :: fs, k =>
    if ¬ isBlank f.text ∧ fieldKey f = k then some f.text else firstSrc fs k

/-- Structural invariant of a freshly built catalog: context keys are
unique, entries carry no translations yet, and every location reference of
an entry equals its key (and there is at least one). -/
def GoodCat (cat : List CatalogEntry) : Prop :=
  (cat.map (fun e => e.key)).Nodup ∧
  ∀ e ∈ cat, e.translations = [] ∧ e.locations ≠ [] ∧ ∀ l ∈ e.locations, l = e.key

/-- The first record for a given (identity, locale) pair. -/
def lookupRec : List TransRecord → ModuleIdentity → Str → Option TransRecord
  | [], _, _ => none
  | r :: rest, mid, locale =>
    if r.identity = mid ∧ r.locale = locale then some r else lookupRec rest mid locale

/-- The translated text recorded for one (identity, locale, field) slot. -/
def slotOf : List TransRecord → ModuleIdentity → Str → FieldKind → Option Str
  | [], _, _, _ => none
  | r :: rest, mid, locale, k =>
    if r.identity = mid ∧ r.locale = locale then lookupSlot r.fields k
    else slotOf rest mid locale k

/-- The (identity, locale) pairs of a TranslationSet. -/
def recPairs (recs : List TransRecord) : List (ModuleIdentity × Str) :=
  recs.map (fun r => (r.identity, r.locale))

/-- Structural invariant of the accumulating TranslationSet: no duplicate
(identity, locale) pair (spec §3 invariant), every record has at least one
filled slot, and no record repeats a field slot. -/
def WFRecs (recs : List TransRecord) : Prop :=
  (recPairs recs).Nodup ∧
  ∀ r ∈ recs, r.fields ≠ [] ∧ (r.fields.map Prod.fst).Nodup

/-- The translated text the injected catalog determines for one (identity,
locale, field) slot: the first entry whose key decodes to (identity, field)
contributes `t entry.key locale` for each locale of `locales`. -/
def entrySlot (locales : List Str) (t : Str → Str → Str) :
    List CatalogEntry → ModuleIdentity → Str → FieldKind → Option Str
  | [], _, _, _ => none
  | e :: es, mid, locale, k =>
    match decode e.key with
    | .ok (mid2, k2) =>
      if mid2 = mid ∧ k2 = k then
        if locale ∈ locales then some (t e.key locale) else none
      else entrySlot locales t es mid locale k
    | .error _ => entrySlot locales t es mid locale k

/-- Shape of the injected catalog fed to the reconstructor: unique keys,
every key an image of `encode`, locations all equal to the key and
nonempty, and translations exactly the injected assignment. -/
def EntriesWF (locales : List Str) (t : Str → Str → Str) (es : List CatalogEntry) : Prop :=
  (es.map (fun e => e.key)).Nodup ∧
  ∀ e ∈ es, (∃ mid k, decode e.key = .ok (mid, k)) ∧
    e.locations ≠ [] ∧ (∀ l ∈ e.locations, l = e.key) ∧
    e.translations = locales.map (fun l => (l, t e.key l))

/-! ## Concrete values used by witnesses and counterexamples -/

/-- A session that raises a connection error twice and then succeeds with
one build target named `f29-build`. -/
def exSession : Session := fun k =>
  if k = 2 then .ok (⟨'f' :: '2' :: '9' :: '-' :: 'b' :: 'u' :: 'i' :: 'l' :: 'd' :: []⟩ :: [])
  else .connError

/-- A concrete module identity. -/
def exId1 : ModuleIdentity := ⟨'f' :: 'o' :: 'o' :: [], '1' :: [], 'c' :: '1' :: []⟩

/-- A second concrete module identity. -/
def exId2 : ModuleIdentity := ⟨'b' :: 'a' :: 'r' :: [], '2' :: [], 'c' :: '2' :: []⟩

/-- A concrete module index: two summaries and one profile description. -/
def exFields : List TranslatableField :=
  ⟨exId1, .summary, 'F' :: 'o' :: 'o' :: []⟩ ::
  ⟨exId1, .profile ('s' :: 'r' :: 'v' :: []), 'S' :: 'r' :: 'v' :: []⟩ ::
  ⟨exId2, .summary, 'B' :: 'a' :: 'r' :: []⟩ :: []

/-- A concrete module index carrying a source-text conflict: the same
identity and field kind with two different non-blank source texts. -/
def conflictFields : List TranslatableField :=
  ⟨exId1, .summary, 'A' :: []⟩ :: ⟨exId1, .summary, 'B' :: []⟩ :: []

/-- A concrete translation assignment used by round-trip witnesses. -/
def exAssign : Str → Str → Str := fun k l => 'T' :: (k ++ l)

/-- The catalog built from `exFields`, sorted by primary location. -/
def exCat : List CatalogEntry :=
  ⟨"bar;2;c2;summary".data, 'B' :: 'a' :: 'r' :: [], "bar;2;c2;summary".data :: [], []⟩ ::
  ⟨"foo;1;c1;profile;srv".data, 'S' :: 'r' :: 'v' :: [], "foo;1;c1;profile;srv".data :: [], []⟩ ::
  ⟨"foo;1;c1;summary".data, 'F' :: 'o' :: 'o' :: [], "foo;1;c1;summary".data :: [], []⟩ :: []

/-- Concrete CLI options for `extract`. -/
def exArgs : ExtractArgs := ⟨"f40", "https://z.example", "proj", "doc"⟩

/-- A failing push-tool result. -/
def exFailResult : ToolResult := ⟨1, "out", "err"⟩

/-! ## Order and plumbing lemmas -/

theorem except_map_ok {ε α β : Type} (f : α → β) (x : Except ε α) (b : β)
    (h : Except.map f x = .ok b) : ∃ a, x = .ok a ∧ b = f a := by
  cases x with
  | ok a => exact ⟨a, rfl, by cases h; rfl⟩
  | error e => cases h

/-! ## C8: the nine Fedora modular tags -/

/-- C8: for every branch string `b`, `get_tags_for_fedora_branch b` returns
exactly nine tag names, in a fixed order, each equal to `b` followed by one
of the nine `-modular…` suffixes. -/
theorem C8_nine_fixed_tags (b : String) :
    get_tags_for_fedora_branch b =
      (["-modular", "-modular-override", "-modular-pending",
        "-modular-signing-pending", "-modular-updates",
        "-modular-updates-candidate", "-modular-updates-pending",
        "-modular-updates-testing",
        "-modular-updates-testing-pending"].map (fun suf => b ++ suf)) ∧
    (get_tags_for_fedora_branch b).length = 9 :=
  ⟨rfl, rfl⟩

/-! ## C4: `generate_metadata` serializes in sorted order -/

/-- C4: `generate_metadata` passes to the serializer exactly the
reconstructed translations, reordered into the sort by module identity
(name, stream, context) and then locale: the dumped sequence is a
permutation of the input and is sorted by that key. -/
theorem C4_metadata_sorted (doc : String) (translations : List TransRecord) :
    ∃ sorted,
      generate_metadata doc translations =
        .dumpYaml (doc ++ ".yaml") sorted ::
        .printOut ("Wrote modulemd-translations YAML to " ++ doc ++ ".yaml") :: [] ∧
      sorted.Perm translations ∧
      sorted.Pairwise (fun a b => keyList a ≤ keyList b) := by
  refine ⟨sortedRecords translations, rfl, List.perm_insertionSort recLe translations, ?_⟩
  exact List.sorted_insertionSort recLe translations

/-! ## C5: a failing upload aborts the run -/

/-- C5: in the `extract` subcommand, when the external push tool exits with
a nonzero return code, the CLI prints the tool's stderr and stdout and
terminates the process with exit status 1 (nonzero). -/
theorem C5_upload_failure_aborts (a : ExtractArgs) (catalog : List CatalogEntry)
    (result : ToolResult) (h : result.returncode ≠ 0) :
    Event.printOut result.stderrStr ∈ extract a catalog true result ∧
    Event.printOut result.stdoutStr ∈ extract a catalog true result ∧
    ∃ c, (extract a catalog true result).getLast? = some (.exitCode c) ∧ c ≠ 0 := by
  refine ⟨?_, ?_, 1, ?_, one_ne_zero⟩ <;> simp [extract, h]

/-- Witness for C5 at a concrete failing tool result. -/
theorem C5_witness :
    Event.printOut exFailResult.stderrStr ∈ extract exArgs [] true exFailResult ∧
    Event.printOut exFailResult.stdoutStr ∈ extract exArgs [] true exFailResult ∧
    ∃ c, (extract exArgs [] true exFailResult).getLast? = some (.exitCode c) ∧ c ≠ 0 :=
  C5_upload_failure_aborts exArgs [] exFailResult (by decide)

/-! ## C10: the catalog file is written before any upload -/

/-- C10: `extract` writes the extracted catalog `<document>.pot` and prints
the success message first; every later event (including the whole upload
interaction and any failure handling) performs no filesystem write, so a
failing upload leaves the written catalog file unchanged. -/
theorem C10_write_before_upload (a : ExtractArgs) (catalog : List CatalogEntry)
    (upload : Bool) (result : ToolResult) :
    ∃ rest,
      extract a catalog upload result =
        .writeFile (a.doc ++ ".pot") (potContent catalog) ::
        .printOut ("Wrote extracted strings for " ++ a.branch ++ " to " ++ a.doc ++ ".pot") ::
        rest ∧
      ∀ e ∈ rest, e.isWrite = false := by
  refine ⟨_, rfl, ?_⟩
  intro e he
  by_cases hu : upload
  · by_cases hr : result.returncode ≠ 0
    · simp [hu, hr] at he
      rcases he with h | h | h | h <;> simp [h, Event.isWrite]
    · simp [hu, hr] at he
      simp [he, Event.isWrite]
  · simp [hu] at he

/-- Witness for C10 at concrete arguments. -/
theorem C10_witness :
    ∃ rest,
      extract exArgs [] true exFailResult =
        .writeFile (exArgs.doc ++ ".pot") (potContent []) ::
        .printOut ("Wrote extracted strings for " ++ exArgs.branch ++ " to " ++ exArgs.doc ++ ".pot") ::
        rest ∧
      ∀ e ∈ rest, e.isWrite = false :=
  C10_write_before_upload exArgs [] true exFailResult

/-! ## C1 / C9: the Koji retry loop -/

theorem retryLoop_none_iff (session : Session) (fuel : Nat) :
    ∀ start, (retryLoop session start fuel = none ↔
      ∀ k, k < fuel → session (start + k) = .connError) := by
  induction fuel with
  | zero => intro start; simp [retryLoop]
  | succ n ih =>
    intro start
    rw [retryLoop]
    cases hs : session start with
    | ok targets =>
      simp only [iff_false]
      constructor
      · intro h; cases h
      · intro h
        have h0 := h 0 (Nat.succ_pos n)
        rw [Nat.add_zero, hs] at h0
        cases h0
    | connError =>
      rw [ih (start + 1)]
      constructor
      · intro h k hk
        match k, hk with
        | 0, _ => simpa using hs
        | j + 1, hj =>
          have := h j (by omega)
          rw [Nat.add_assoc, Nat.add_comm 1 j] at this
          exact this
      · intro h k hk
        have := h (k + 1) (by omega)
        rw [Nat.add_assoc, Nat.add_comm 1 k] at *
        exact this

theorem retryLoop_first_success (session : Session) (fuel : Nat) :
    ∀ start k targets, k < fuel →
      (∀ j, j < k → session (start + j) = .connError) →
      session (start + k) = .ok targets →
      retryLoop session start fuel = some targets := by
  induction fuel with
  | zero => intro start k targets hk; omega
  | succ n ih =>
    intro start k targets hk hfail hok
    rw [retryLoop]
    match k, hk with
    | 0, _ =>
      rw [Nat.add_zero] at hok
      rw [hok]
    | j + 1, hj =>
      have h0 := hfail 0 (by omega)
      rw [Nat.add_zero] at h0
      rw [h0]
      refine ih (start + 1) j targets (by omega) ?_ ?_
      · intro i hi
        have heq : start + 1 + i = start + (i + 1) := by omega
        rw [heq]
        exact hfail (i + 1) (by omega)
      · have heq : start + 1 + j = start + (j + 1) := by omega
        rw [heq]
        exact hok

/-- C1 (amended): when every `getBuildTargets('rawhide')` call raises a
transient connection error, `get_fedora_rawhide_version` makes exactly 5
bounded attempts and then fails hard — but the failure it surfaces is the
`UnboundLocalError` from reading the never-assigned `build_targets`
variable, never the connection error itself, which the loop swallows. -/
theorem C1_bounded_retry_unbound_local (session : Session) :
    (get_fedora_rawhide_version session = .error .unboundLocal ↔
      ∀ k, k < 5 → session k = .connError) ∧
    get_fedora_rawhide_version session ≠ .error .connectionError := by
  constructor
  · rw [get_fedora_rawhide_version]
    cases h : retryLoop session 0 5 with
    | none =>
      simp only [true_iff]
      have := (retryLoop_none_iff session 5 0).mp h
      simpa using this
    | some targets =>
      have hn : ¬ ∀ k, k < 5 → session k = .connError := by
        intro hc
        rw [(retryLoop_none_iff session 5 0).mpr (by simpa using hc)] at h
        cases h
      cases targets with
      | nil => simpa using hn
      | cons t rest => simpa using hn
  · rw [get_fedora_rawhide_version]
    cases h : retryLoop session 0 5 with
    | none => simp
    | some targets => cases targets with
      | nil => simp
      | cons t rest => simp

/-- Counterexample to C1 as stated: with a session whose every call raises
a connection error, the surfaced hard failure is the `UnboundLocalError`
from the unassigned `build_targets` variable, not the connection error. -/
theorem C1_counterexample :
    get_fedora_rawhide_version allFailSession = .error .unboundLocal ∧
    (Except.error PyErr.unboundLocal : Except PyErr Str) ≠ .error .connectionError := by
  constructor
  · rfl
  · decide

/-- Witness for C1 (amended) at the all-failing session. -/
theorem C1_witness :
    (get_fedora_rawhide_version allFailSession = .error .unboundLocal ↔
      ∀ k, k < 5 → allFailSession k = .connError) ∧
    get_fedora_rawhide_version allFailSession ≠ .error .connectionError :=
  C1_bounded_retry_unbound_local allFailSession

/-! ## C9: the success path of `get_fedora_rawhide_version` -/

theorem partitionHead_spec (pat : Str) (s : Str) :
    partitionHead pat s <+: s ∧
    (∀ i, i < (partitionHead pat s).length → ¬ pat <+: s.drop i) ∧
    (pat <+: s.drop (partitionHead pat s).length ∨ partitionHead pat s = s) := by
  induction s with
  | nil =>
    refine ⟨List.nil_prefix, ?_, .inr rfl⟩
    intro i hi
    simp [partitionHead] at hi
  | cons c rest ih =>
    rw [partitionHead]
    by_cases hp : pat.isPrefixOf (c :: rest) = true
    · rw [if_pos hp]
      refine ⟨List.nil_prefix, ?_, .inl ?_⟩
      · intro i hi; simp at hi
      · simpa using List.isPrefixOf_iff_prefix.mp hp
    · rw [if_neg hp]
      obtain ⟨ih1, ih2, ih3⟩ := ih
      refine ⟨by simpa using ih1, ?_, ?_⟩
      · intro i hi
        match i with
        | 0 =>
          intro hc
          exact hp (List.isPrefixOf_iff_prefix.mpr (by simpa using hc))
        | j + 1 =>
          simp only [List.length_cons] at hi
          simpa using ih2 j (by omega)
      · rcases ih3 with h | h
        · exact .inl (by simpa using h)
        · exact .inr (by rw [h])

/-- C9: when some attempt of the retry loop succeeds (after only
connection errors), `get_fedora_rawhide_version` returns the portion of
the first build target's `build_tag_name` before the first occurrence of
the substring `-build` — the whole name when `-build` does not occur. -/
theorem C9_success_returns_tag_head (session : Session) (k : Nat) (t : BuildTarget)
    (rest : List BuildTarget) (hk : k < 5)
    (hfail : ∀ j, j < k → session j = .connError)
    (hok : session k = .ok (t :: rest)) :
    ∃ p, get_fedora_rawhide_version session = .ok p ∧
      p <+: t.build_tag_name ∧
      (∀ i, i < p.length → ¬ ('-' :: 'b' :: 'u' :: 'i' :: 'l' :: 'd' :: []) <+: t.build_tag_name.drop i) ∧
      (('-' :: 'b' :: 'u' :: 'i' :: 'l' :: 'd' :: []) <+: t.build_tag_name.drop p.length ∨
        p = t.build_tag_name) := by
  have hloop := retryLoop_first_success session 5 0 k (t :: rest) hk (by simpa using hfail)
    (by simpa using hok)
  refine ⟨partitionHead ('-' :: 'b' :: 'u' :: 'i' :: 'l' :: 'd' :: []) t.build_tag_name, ?_, ?_⟩
  · rw [get_fedora_rawhide_version, hloop]
  · exact partitionHead_spec _ _

/-- Witness for C9: the session that succeeds on its third attempt with a
build target named `f29-build`, whose version head is `f29`. -/
theorem C9_witness :
    ∃ p, get_fedora_rawhide_version exSession = .ok p ∧
      p <+: ('f' :: '2' :: '9' :: '-' :: 'b' :: 'u' :: 'i' :: 'l' :: 'd' :: []) ∧
      (∀ i, i < p.length → ¬ ('-' :: 'b' :: 'u' :: 'i' :: 'l' :: 'd' :: []) <+:
        ('f' :: '2' :: '9' :: '-' :: 'b' :: 'u' :: 'i' :: 'l' :: 'd' :: []).drop i) ∧
      (('-' :: 'b' :: 'u' :: 'i' :: 'l' :: 'd' :: []) <+:
        ('f' :: '2' :: '9' :: '-' :: 'b' :: 'u' :: 'i' :: 'l' :: 'd' :: []).drop p.length ∨
        p = ('f' :: '2' :: '9' :: '-' :: 'b' :: 'u' :: 'i' :: 'l' :: 'd' :: [])) :=
  C9_success_returns_tag_head exSession 2
    ⟨'f' :: '2' :: '9' :: '-' :: 'b' :: 'u' :: 'i' :: 'l' :: 'd' :: []⟩ []
    (by omega) (by decide) (by rfl)

/-! ## C3: the context-key codec -/

theorem splitSep_ne_nil (s : Str) : splitSep s ≠ [] := by
  cases s with
  | nil => simp [splitSep]
  | cons c rest =>
    rw [splitSep]
    by_cases hc : c = sep
    · simp [hc]
    · rw [if_neg hc]
      cases splitSep rest <;> simp

theorem splitSep_single (x : Str) (hx : LegalStr x) : splitSep x = x :: [] := by
  induction x with
  | nil => rfl
  | cons c rest ih =>
    have hc : ¬ c = sep := by intro h; exact hx (by simp [h])
    rw [splitSep, if_neg hc, ih (by intro hm; exact hx (by simp [hm]))]

theorem splitSep_sep_append (x s : Str) (hx : LegalStr x) :
    splitSep (x ++ sep :: s) = x :: splitSep s := by
  induction x with
  | nil =>
    rw [List.nil_append, splitSep, if_pos rfl]
  | cons c rest ih =>
    have hc : ¬ c = sep := by intro h; exact hx (by simp [h])
    rw [List.cons_append, splitSep, if_neg hc, ih (by intro hm; exact hx (by simp [hm]))]

theorem joinSep_splitSep (s : Str) : joinSep (splitSep s) = s := by
  induction s with
  | nil => rfl
  | cons c rest ih =>
    rw [splitSep]
    by_cases hc : c = sep
    · rw [if_pos hc]
      cases hsp : splitSep rest with
      | nil => exact absurd hsp (splitSep_ne_nil rest)
      | cons p ps =>
        rw [hsp] at ih
        rw [joinSep, List.nil_append, ih, hc]
    · rw [if_neg hc]
      cases hsp : splitSep rest with
      | nil => exact absurd hsp (splitSep_ne_nil rest)
      | cons p ps =>
        rw [hsp] at ih
        cases ps with
        | nil =>
          rw [joinSep] at ih ⊢
          rw [ih]
        | cons q qs =>
          rw [joinSep] at ih ⊢
          rw [List.cons_append, ih]

theorem splitSep_joinSep (parts : List Str) (hne : parts ≠ [])
    (hleg : ∀ p ∈ parts, LegalStr p) : splitSep (joinSep parts) = parts := by
  induction parts with
  | nil => simp at hne
  | cons x xs ih =>
    cases xs with
    | nil => exact splitSep_single x (hleg x (by simp))
    | cons y ys =>
      rw [joinSep, splitSep_sep_append x _ (hleg x (by simp)),
        ih (by simp) (fun p hp => hleg p (by simp [hp]))]

theorem encode_parts_legal (mid : ModuleIdentity) (k : FieldKind)
    (hid : LegalId mid) (hk : LegalKind k) :
    ∀ p ∈ (mid.name :: mid.stream :: mid.context :: kindParts k), LegalStr p := by
  obtain ⟨h1, h2, h3⟩ := hid
  intro p hp
  cases k with
  | summary =>
    simp [kindParts] at hp
    rcases hp with h | h | h | h <;> subst h
    · exact h1
    · exact h2
    · exact h3
    · decide
  | description =>
    simp [kindParts] at hp
    rcases hp with h | h | h | h <;> subst h
    · exact h1
    · exact h2
    · exact h3
    · decide
  | profile pn =>
    simp [kindParts] at hp
    rcases hp with h | h | h | h | h <;> subst h
    · exact h1
    · exact h2
    · exact h3
    · decide
    · exact hk

theorem decode_encode (mid : ModuleIdentity) (k : FieldKind)
    (hid : LegalId mid) (hk : LegalKind k) :
    decode (encode mid k) = .ok (mid, k) := by
  have hparts := splitSep_joinSep (mid.name :: mid.stream :: mid.context :: kindParts k)
    (by simp) (encode_parts_legal mid k hid hk)
  obtain ⟨h1, h2, h3⟩ := hid
  cases k with
  | summary =>
    rw [kindParts] at hparts
    rw [decode, encode, kindParts, hparts]
    exact (if_pos ⟨h1, h2, h3⟩).trans (if_pos rfl)
  | description =>
    rw [kindParts] at hparts
    rw [decode, encode, kindParts, hparts]
    exact (if_pos ⟨h1, h2, h3⟩).trans (((if_neg (by decide)).trans (if_pos rfl)))
  | profile pn =>
    rw [kindParts] at hparts
    rw [decode, encode, kindParts, hparts]
    exact (if_pos ⟨h1, h2, h3, hk⟩).trans (if_pos rfl)

theorem decode_sound (s : Str) (mid : ModuleIdentity) (k : FieldKind)
    (h : decode s = .ok (mid, k)) :
    LegalId mid ∧ LegalKind k ∧ encode mid k = s := by
  rw [decode] at h
  split at h
  case _ n st c t heq =>
    split at h
    case isTrue hleg =>
      split at h
      case isTrue hsum =>
        cases h
        refine ⟨hleg, trivial, ?_⟩
        rw [encode, kindParts, ← hsum, ← heq]
        exact joinSep_splitSep s
      case isFalse hsum =>
        split at h
        case isTrue hdesc =>
          cases h
          refine ⟨hleg, trivial, ?_⟩
          rw [encode, kindParts, ← hdesc, ← heq]
          exact joinSep_splitSep s
        case isFalse hdesc => cases h
    case isFalse hleg => cases h
  case _ n st c t p heq =>
    split at h
    case isTrue hleg =>
      split at h
      case isTrue hprof =>
        cases h
        refine ⟨⟨hleg.1, hleg.2.1, hleg.2.2.1⟩, hleg.2.2.2, ?_⟩
        rw [encode, kindParts, ← hprof, ← heq]
        exact joinSep_splitSep s
      case isFalse hprof => cases h
    case isFalse hleg => cases h
  case _ => cases h

theorem decode_error_shape (s : Str) :
    (∃ x, decode s = .ok x) ∨ decode s = .error (.malformedKey s) := by
  rw [decode]
  split
  · split
    · split
      · exact .inl ⟨_, rfl⟩
      · split
        · exact .inl ⟨_, rfl⟩
        · exact .inr rfl
    · exact .inr rfl
  · split
    · split
      · exact .inl ⟨_, rfl⟩
      · exact .inr rfl
    · exact .inr rfl
  · exact .inr rfl

/-- C3: the context-key codec is injective and invertible. For legal
inputs `decode` is a left inverse of `encode`; `encode` is injective; and
`decode` fails with `MalformedKey` on any key that is not the encoding of
some legal (identity, field kind, profile) tuple. -/
theorem C3_codec_injective_invertible :
    (∀ mid k, LegalId mid → LegalKind k → decode (encode mid k) = .ok (mid, k)) ∧
    (∀ mid k mid2 k2, LegalId mid → LegalKind k → LegalId mid2 → LegalKind k2 →
      encode mid k = encode mid2 k2 → mid = mid2 ∧ k = k2) ∧
    (∀ s, (¬ ∃ mid k, LegalId mid ∧ LegalKind k ∧ encode mid k = s) →
      decode s = .error (.malformedKey s)) := by
  refine ⟨decode_encode, ?_, ?_⟩
  · intro mid k mid2 k2 hid hk hid2 hk2 henc
    have h1 := decode_encode mid k hid hk
    rw [henc, decode_encode mid2 k2 hid2 hk2] at h1
    cases h1
    exact ⟨rfl, rfl⟩
  · intro s hno
    rcases decode_error_shape s with ⟨⟨mid, k⟩, hok⟩ | herr
    · obtain ⟨hid, hk, henc⟩ := decode_sound s mid k hok
      exact absurd ⟨mid, k, hid, hk, henc⟩ hno
    · exact herr

/-- Witness for C3: a concrete round trip and a concrete malformed key. -/
theorem C3_witness :
    decode (encode exId1 .summary) = .ok (exId1, .summary) ∧
    decode ('x' :: []) = .error (.malformedKey ('x' :: [])) := by
  constructor
  · exact C3_codec_injective_invertible.1 exId1 .summary (by decide) trivial
  · refine C3_codec_injective_invertible.2.2 ('x' :: []) ?_
    rintro ⟨mid, k, hid, hk, henc⟩
    have h2 := C3_codec_injective_invertible.1 mid k hid hk
    rw [henc] at h2
    have hx : decode ('x' :: []) = .error (.malformedKey ('x' :: [])) := by rfl
    rw [hx] at h2
    cases h2

/-! ## Catalog Builder lemmas -/

theorem lookupKey_none_iff (acc : List CatalogEntry) (k : Str) :
    lookupKey acc k = none ↔ ∀ e ∈ acc, e.key ≠ k := by
  induction acc with
  | nil => simp [lookupKey]
  | cons e rest ih =>
    rw [lookupKey]
    by_cases he : e.key = k
    · simp [he]
    · simp [he, ih]

theorem lookupKey_mem (acc : List CatalogEntry) (k : Str) (e : CatalogEntry)
    (h : lookupKey acc k = some e) : e ∈ acc ∧ e.key = k := by
  induction acc with
  | nil => cases h
  | cons e2 rest ih =>
    rw [lookupKey] at h
    by_cases he : e2.key = k
    · rw [if_pos he] at h
      cases h
      exact ⟨by simp, he⟩
    · rw [if_neg he] at h
      obtain ⟨hm, hk⟩ := ih h
      exact ⟨by simp [hm], hk⟩

theorem lookupKey_append (xs ys : List CatalogEntry) (k : Str) :
    lookupKey (xs ++ ys) k = (lookupKey xs k).or (lookupKey ys k) := by
  induction xs with
  | nil => simp [lookupKey]
  | cons e rest ih =>
    rw [List.cons_append, lookupKey, lookupKey]
    by_cases he : e.key = k
    · simp [he]
    · simp [he, ih]

theorem lookupKey_of_mem (cat : List CatalogEntry)
    (hnd : (cat.map (fun e => e.key)).Nodup) (e : CatalogEntry) (he : e ∈ cat) :
    lookupKey cat e.key = some e := by
  induction cat with
  | nil => cases he
  | cons e2 rest ih =>
    rw [List.map_cons, List.nodup_cons] at hnd
    rw [lookupKey]
    rcases List.mem_cons.mp he with heq | hm
    · subst heq
      rw [if_pos rfl]
    · by_cases hk : e2.key = e.key
      · exact absurd (hk ▸ List.mem_map_of_mem (fun e => e.key) hm) hnd.1
      · rw [if_neg hk]
        exact ih hnd.2 hm

theorem addField_ok_shape (key text : Str) (acc acc2 : List CatalogEntry)
    (h : addField key text acc = .ok acc2) :
    (lookupKey acc key = none ∧ acc2 = acc ++ ⟨key, text, key :: [], []⟩ :: []) ∨
    (∃ e pre post, lookupKey acc key = some e ∧ e.source = text ∧
      acc = pre ++ e :: post ∧
      acc2 = pre ++ { e with locations := e.locations ++ key :: [] } :: post ∧
      ∀ e2 ∈ pre, e2.key ≠ key) := by
  induction acc generalizing acc2 with
  | nil =>
    cases h
    exact .inl ⟨rfl, rfl⟩
  | cons e rest ih =>
    rw [addField] at h
    by_cases hk : e.key = key
    · rw [if_pos hk] at h
      by_cases hs : e.source = text
      · rw [if_pos hs] at h
        cases h
        refine .inr ⟨e, [], rest, ?_, hs, rfl, rfl, by simp⟩
        rw [lookupKey, if_pos hk]
      · rw [if_neg hs] at h
        cases h
    · rw [if_neg hk] at h
      cases haf : addField key text rest with
      | error err => rw [haf] at h; cases h
      | ok acc3 =>
        rw [haf] at h
        cases h
        rcases ih acc3 haf with ⟨hnone, heq⟩ | ⟨e0, pre, post, hlk, hsrc, heq1, heq2, hpre⟩
        · refine .inl ⟨?_, by rw [heq, List.cons_append]⟩
          rw [lookupKey, if_neg hk, hnone]
        · refine .inr ⟨e0, e :: pre, post, ?_, hsrc, by rw [heq1, List.cons_append],
            by rw [heq2, List.cons_append], ?_⟩
          · rw [lookupKey, if_neg hk, hlk]
          · intro e2 he2
            rcases List.mem_cons.mp he2 with h2 | h2
            · subst h2; exact hk
            · exact hpre e2 h2

theorem addField_ok_self (key text : Str) (acc acc2 : List CatalogEntry)
    (h : addField key text acc = .ok acc2) : keySrc acc2 key = some text := by
  rcases addField_ok_shape key text acc acc2 h with ⟨hnone, heq⟩ |
    ⟨e, pre, post, hlk, hsrc, heq1, heq2, hpre⟩
  · rw [keySrc, heq, lookupKey_append, hnone, Option.none_or, lookupKey, if_pos rfl]
    rfl
  · have hkey := (lookupKey_mem acc key e hlk).2
    have hprenone : lookupKey pre key = none := (lookupKey_none_iff pre key).mpr hpre
    rw [keySrc, heq2, lookupKey_append, hprenone, Option.none_or, lookupKey, if_pos hkey]
    simpa using hsrc

theorem addField_ok_other (key text : Str) (acc acc2 : List CatalogEntry)
    (h : addField key text acc = .ok acc2) (k : Str) (hk : k ≠ key) :
    lookupKey acc2 k = lookupKey acc k := by
  rcases addField_ok_shape key text acc acc2 h with ⟨hnone, heq⟩ |
    ⟨e, pre, post, hlk, hsrc, heq1, heq2, hpre⟩
  · rw [heq, lookupKey_append, lookupKey, if_neg (by simpa using (Ne.symm hk)), lookupKey,
      Option.or_none]
  · have hkey := (lookupKey_mem acc key e hlk).2
    rw [heq2, heq1, lookupKey_append, lookupKey_append, lookupKey, lookupKey]
    have hek : ¬ ({ e with locations := e.locations ++ key :: [] } : CatalogEntry).key = k := by
      simpa using (hkey ▸ Ne.symm hk : e.key ≠ k)
    have hek2 : ¬ e.key = k := hkey ▸ Ne.symm hk
    rw [if_neg hek, if_neg hek2]

theorem addField_ok_compat (key text : Str) (acc acc2 : List CatalogEntry)
    (h : addField key text acc = .ok acc2) :
    lookupKey acc key = none ∨ keySrc acc key = some text := by
  rcases addField_ok_shape key text acc acc2 h with ⟨hnone, _⟩ |
    ⟨e, pre, post, hlk, hsrc, _, _, _⟩
  · exact .inl hnone
  · exact .inr (by rw [keySrc, hlk]; simpa using hsrc)

theorem addField_good (key text : Str) (acc acc2 : List CatalogEntry)
    (h : addField key text acc = .ok acc2) (hg : GoodCat acc) : GoodCat acc2 := by
  obtain ⟨hnd, hent⟩ := hg
  rcases addField_ok_shape key text acc acc2 h with ⟨hnone, heq⟩ |
    ⟨e, pre, post, hlk, hsrc, heq1, heq2, hpre⟩
  · constructor
    · rw [heq, List.map_append]
      simp only [List.map_cons, List.map_nil]
      rw [List.nodup_append]
      refine ⟨hnd, by simp, ?_⟩
      intro k hk1 hk2
      simp only [List.mem_singleton] at hk2
      obtain ⟨e2, he2, hke⟩ := List.mem_map.mp hk1
      exact ((lookupKey_none_iff acc key).mp hnone e2 he2) (hke.trans hk2)
    · intro e2 he2
      rw [heq] at he2
      rcases List.mem_append.mp he2 with hm | hm
      · exact hent e2 hm
      · simp only [List.mem_singleton] at hm
        subst hm
        refine ⟨rfl, by simp, by simp⟩
  · have hkey := (lookupKey_mem acc key e hlk).2
    have hmem : e ∈ acc := (lookupKey_mem acc key e hlk).1
    obtain ⟨htr, hloc, hall⟩ := hent e hmem
    constructor
    · have : acc2.map (fun e => e.key) = acc.map (fun e => e.key) := by
        rw [heq1, heq2, List.map_append, List.map_append, List.map_cons, List.map_cons]
      rw [this]
      exact hnd
    · intro e2 he2
      rw [heq2] at he2
      rcases List.mem_append.mp he2 with hm | hm
      · exact hent e2 (heq1 ▸ List.mem_append_left _ hm)
      · rcases List.mem_cons.mp hm with hm2 | hm2
        · subst hm2
          refine ⟨htr, by simp, ?_⟩
          intro l hl
          rcases List.mem_append.mp hl with hl2 | hl2
          · exact hall l hl2
          · simp only [List.mem_singleton] at hl2
            subst hl2
            exact hkey.symm
        · exact hent e2 (heq1 ▸ List.mem_append_right _ (List.mem_cons_of_mem e hm2))

theorem buildFold_ok (fields : List TranslatableField) :
    ∀ acc cat, buildFold fields acc = .ok cat → GoodCat acc →
      GoodCat cat ∧
      (∀ k, keySrc cat k = (keySrc acc k).or (firstSrc fields k)) ∧
      (∀ f ∈ fields, isBlank f.text = false → keySrc cat (fieldKey f) = some f.text) := by
  induction fields with
  | nil =>
    intro acc cat h hg
    cases h
    refine ⟨hg, ?_, by simp⟩
    intro k
    simp [firstSrc]
  | cons f fs ih =>
    intro acc cat h hg
    rw [buildFold] at h
    by_cases hb : isBlank f.text = true
    · rw [if_pos hb] at h
      obtain ⟨hgood, hor, hall⟩ := ih acc cat h hg
      refine ⟨hgood, ?_, ?_⟩
      · intro k
        rw [hor k, firstSrc, if_neg (by simp [hb])]
      · intro g hg2 hbg
        rcases List.mem_cons.mp hg2 with heq | hm
        · subst heq
          rw [hb] at hbg
          cases hbg
        · exact hall g hm hbg
    · rw [if_neg hb] at h
      cases haf : addField (fieldKey f) f.text acc with
      | error err => rw [haf] at h; cases h
      | ok acc2 =>
        rw [haf] at h
        obtain ⟨hgood, hor, hall⟩ := ih acc2 cat h (addField_good _ _ _ _ haf hg)
        have hself : keySrc acc2 (fieldKey f) = some f.text := addField_ok_self _ _ _ _ haf
        refine ⟨hgood, ?_, ?_⟩
        · intro k
          rw [hor k, firstSrc]
          by_cases hk : fieldKey f = k
          · subst hk
            rw [if_pos ⟨hb, rfl⟩, hself]
            rcases addField_ok_compat _ _ _ _ haf with hnone | hsome
            · rw [keySrc, hnone]
              simp
            · rw [hsome]
              simp
          · rw [if_neg (by intro hc; exact hk hc.2)]
            simp only [keySrc, addField_ok_other _ _ _ _ haf k (fun hc => hk hc.symm)]
        · intro g hg2 hbg
          rcases List.mem_cons.mp hg2 with heq | hm
          · subst heq
            rw [hor (fieldKey g), hself]
            simp
          · exact hall g hm hbg

theorem lookupKey_perm (cat cat2 : List CatalogEntry) (hp : cat.Perm cat2)
    (hnd : (cat.map (fun e => e.key)).Nodup) (k : Str) :
    lookupKey cat k = lookupKey cat2 k := by
  have hnd2 : (cat2.map (fun e => e.key)).Nodup := ((hp.map _).nodup_iff).mp hnd
  cases h1 : lookupKey cat k with
  | none =>
    have hall := (lookupKey_none_iff cat k).mp h1
    exact ((lookupKey_none_iff cat2 k).mpr (fun e he => hall e (hp.mem_iff.mpr he))).symm
  | some e =>
    obtain ⟨hm, hk⟩ := lookupKey_mem cat k e h1
    subst hk
    exact (lookupKey_of_mem cat2 hnd2 e (hp.mem_iff.mp hm)).symm

theorem build_catalog_good (fields : List TranslatableField) (cat : List CatalogEntry)
    (h : build_catalog fields = .ok cat) :
    GoodCat cat ∧
    (∀ k, keySrc cat k = firstSrc fields k) ∧
    (∀ f ∈ fields, isBlank f.text = false → keySrc cat (fieldKey f) = some f.text) := by
  rw [build_catalog] at h
  obtain ⟨cat0, hf, heq⟩ := except_map_ok _ _ _ h
  obtain ⟨hgood, hor, hall⟩ := buildFold_ok fields [] cat0 hf ⟨by simp, by simp⟩
  have hperm : (List.insertionSort entryLe cat0).Perm cat0 := List.perm_insertionSort entryLe cat0
  have hlk : ∀ k, lookupKey cat k = lookupKey cat0 k := by
    intro k
    rw [heq]
    exact (lookupKey_perm cat0 _ hperm.symm hgood.1 k).symm
  have hks : ∀ k, keySrc cat k = keySrc cat0 k := by
    intro k
    rw [keySrc, keySrc, hlk k]
  refine ⟨⟨?_, ?_⟩, ?_, ?_⟩
  · rw [heq]
    exact ((hperm.map _).nodup_iff).mpr hgood.1
  · intro e he
    exact hgood.2 e (hperm.mem_iff.mp (heq ▸ he))
  · intro k
    rw [hks k, hor k]
    simp [keySrc, lookupKey]
  · intro f hf2 hbf
    rw [hks (fieldKey f)]
    exact hall f hf2 hbf

/-! ## C6: deterministic, location-sorted catalog output -/

/-- C6: the Catalog Builder is deterministic — two runs over the same
module index produce the same catalog — and every successfully built
catalog has its entries sorted by the lexicographic order of their primary
location reference. -/
theorem C6_deterministic_sorted_catalog (fields : List TranslatableField) :
    (∀ cat cat2, build_catalog fields = .ok cat → build_catalog fields = .ok cat2 →
      cat = cat2) ∧
    (∀ cat, build_catalog fields = .ok cat →
      cat.Pairwise (fun a b => primaryLoc a ≤ primaryLoc b)) := by
  constructor
  · intro cat cat2 h1 h2
    rw [h1] at h2
    cases h2
    rfl
  · intro cat h
    rw [build_catalog] at h
    obtain ⟨cat0, hf, heq⟩ := except_map_ok _ _ _ h
    rw [heq]
    exact List.sorted_insertionSort entryLe cat0

/-- Witness for C6: the example module index builds exactly `exCat`,
which is sorted by primary location. -/
theorem C6_witness :
    build_catalog exFields = .ok exCat ∧
    exCat.Pairwise (fun a b => primaryLoc a ≤ primaryLoc b) :=
  ⟨by decide, (C6_deterministic_sorted_catalog exFields).2 exCat (by decide)⟩

/-! ## C7: conflicting sources are rejected, keys never collide -/

/-- C7: when the input module index contains two non-blank fields with the
same context key but different source text, `build_catalog` fails with a
`ConflictingSource` error carrying two locations; and a successfully built
catalog never contains two entries with the same context key. -/
theorem C7_conflicting_source (fields : List TranslatableField)
    (f1 f2 : TranslatableField) (h1 : f1 ∈ fields) (h2 : f2 ∈ fields)
    (hkey : fieldKey f1 = fieldKey f2) (htext : f1.text ≠ f2.text)
    (hb1 : isBlank f1.text = false) (hb2 : isBlank f2.text = false) :
    (∃ l1 l2, build_catalog fields = .error (.conflictingSource l1 l2)) ∧
    (∀ fs cat, build_catalog fs = .ok cat → (cat.map (fun e => e.key)).Nodup) := by
  have hnodup : ∀ fs cat, build_catalog fs = .ok cat → (cat.map (fun e => e.key)).Nodup := by
    intro fs cat h
    exact (build_catalog_good fs cat h).1.1
  refine ⟨?_, hnodup⟩
  cases hres : build_catalog fields with
  | error err =>
    cases err with
    | conflictingSource l1 l2 => exact ⟨l1, l2, rfl⟩
  | ok cat =>
    exfalso
    have hall := (build_catalog_good fields cat hres).2.2
    have e1 := hall f1 h1 hb1
    have e2 := hall f2 h2 hb2
    rw [hkey] at e1
    rw [e1] at e2
    exact htext (Option.some.inj e2)

/-- Witness for C7: the concrete conflicting index fails with
`ConflictingSource`, and the example build has no duplicate keys. -/
theorem C7_witness :
    (∃ l1 l2, build_catalog conflictFields = .error (.conflictingSource l1 l2)) ∧
    (∀ fs cat, build_catalog fs = .ok cat → (cat.map (fun e => e.key)).Nodup) :=
  C7_conflicting_source conflictFields ⟨exId1, .summary, 'A' :: []⟩ ⟨exId1, .summary, 'B' :: []⟩
    (by decide) (by decide) rfl (by decide) (by decide) (by decide)

/-! ## Translation Reconstructor lemmas -/

theorem lookupSlot_none_iff (fields : List (FieldKind × Str)) (k : FieldKind) :
    lookupSlot fields k = none ↔ ∀ p ∈ fields, p.1 ≠ k := by
  induction fields with
  | nil => simp [lookupSlot]
  | cons p rest ih =>
    rw [lookupSlot]
    by_cases hk : p.1 = k
    · rw [if_pos hk]
      simp [hk]
    · rw [if_neg hk]
      simp [hk, ih]

theorem lookupSlot_mem (fields : List (FieldKind × Str)) (k : FieldKind) (v : Str)
    (h : lookupSlot fields k = some v) : (k, v) ∈ fields := by
  induction fields with
  | nil => cases h
  | cons p rest ih =>
    rw [lookupSlot] at h
    by_cases hk : p.1 = k
    · rw [if_pos hk] at h
      cases h
      rw [← hk]
      exact List.mem_cons_self p rest
    · rw [if_neg hk] at h
      exact List.mem_cons_of_mem p (ih h)

theorem lookupSlot_append (xs ys : List (FieldKind × Str)) (k : FieldKind) :
    lookupSlot (xs ++ ys) k = (lookupSlot xs k).or (lookupSlot ys k) := by
  induction xs with
  | nil => simp [lookupSlot]
  | cons p rest ih =>
    rw [List.cons_append, lookupSlot, lookupSlot]
    by_cases hk : p.1 = k
    · simp [hk]
    · simp [hk, ih]

theorem lookupSlot_of_mem (fields : List (FieldKind × Str))
    (hnd : (fields.map Prod.fst).Nodup) (k : FieldKind) (v : Str)
    (h : (k, v) ∈ fields) : lookupSlot fields k = some v := by
  induction fields with
  | nil => cases h
  | cons p rest ih =>
    rw [List.map_cons, List.nodup_cons] at hnd
    rw [lookupSlot]
    rcases List.mem_cons.mp h with heq | hm
    · subst heq
      rw [if_pos rfl]
    · by_cases hk : p.1 = k
      · exfalso
        apply hnd.1
        rw [hk]
        exact List.mem_map_of_mem Prod.fst hm
      · rw [if_neg hk]
        exact ih hnd.2 hm

theorem lookupRec_none_iff (recs : List TransRecord) (mid : ModuleIdentity) (locale : Str) :
    lookupRec recs mid locale = none ↔
      ∀ r ∈ recs, ¬ (r.identity = mid ∧ r.locale = locale) := by
  induction recs with
  | nil => simp [lookupRec]
  | cons r rest ih =>
    rw [lookupRec]
    by_cases hm : r.identity = mid ∧ r.locale = locale
    · rw [if_pos hm]
      simp [hm]
    · rw [if_neg hm, ih]
      constructor
      · intro h r2 h2
        rcases List.mem_cons.mp h2 with heq | hmem
        · subst heq
          exact hm
        · exact h r2 hmem
      · intro h r2 h2
        exact h r2 (List.mem_cons_of_mem r h2)

theorem lookupRec_mem (recs : List TransRecord) (mid : ModuleIdentity) (locale : Str)
    (r : TransRecord) (h : lookupRec recs mid locale = some r) :
    r ∈ recs ∧ r.identity = mid ∧ r.locale = locale := by
  induction recs with
  | nil => cases h
  | cons r2 rest ih =>
    rw [lookupRec] at h
    by_cases hm : r2.identity = mid ∧ r2.locale = locale
    · rw [if_pos hm] at h
      cases h
      exact ⟨by simp, hm⟩
    · rw [if_neg hm] at h
      obtain ⟨ha, hb⟩ := ih h
      exact ⟨List.mem_cons_of_mem r2 ha, hb⟩

theorem lookupRec_append (xs ys : List TransRecord) (mid : ModuleIdentity) (locale : Str) :
    lookupRec (xs ++ ys) mid locale = (lookupRec xs mid locale).or (lookupRec ys mid locale) := by
  induction xs with
  | nil => simp [lookupRec]
  | cons r rest ih =>
    rw [List.cons_append, lookupRec, lookupRec]
    by_cases hm : r.identity = mid ∧ r.locale = locale
    · simp [hm]
    · simp [hm, ih]

theorem lookupRec_of_mem (recs : List TransRecord) (hnd : (recPairs recs).Nodup)
    (r : TransRecord) (h : r ∈ recs) : lookupRec recs r.identity r.locale = some r := by
  induction recs with
  | nil => cases h
  | cons r2 rest ih =>
    rw [recPairs, List.map_cons, List.nodup_cons] at hnd
    rw [lookupRec]
    rcases List.mem_cons.mp h with heq | hm
    · subst heq
      rw [if_pos ⟨rfl, rfl⟩]
    · by_cases hp : r2.identity = r.identity ∧ r2.locale = r.locale
      · exfalso
        apply hnd.1
        have : (r.identity, r.locale) ∈ recPairs rest :=
          List.mem_map_of_mem (fun r => (r.identity, r.locale)) hm
        rw [hp.1, hp.2]
        exact this
      · rw [if_neg hp]
        exact ih hnd.2 hm

theorem slotOf_eq_lookupRec (recs : List TransRecord) (mid : ModuleIdentity) (locale : Str)
    (k : FieldKind) :
    slotOf recs mid locale k =
      match lookupRec recs mid locale with
      | none => none
      | some r => lookupSlot r.fields k := by
  induction recs with
  | nil => rfl
  | cons r rest ih =>
    rw [slotOf, lookupRec]
    by_cases hm : r.identity = mid ∧ r.locale = locale
    · rw [if_pos hm, if_pos hm]
    · rw [if_neg hm, if_neg hm, ih]

theorem insertSlot_slotOf (mid : ModuleIdentity) (locale : Str) (k : FieldKind) (t : Str) :
    ∀ recs recs2, insertSlot mid locale k t recs = .ok recs2 →
      ∀ mid2 locale2 k2, slotOf recs2 mid2 locale2 k2 =
        if mid2 = mid ∧ locale2 = locale ∧ k2 = k then some t
        else slotOf recs mid2 locale2 k2 := by
  intro recs
  induction recs with
  | nil =>
    intro recs2 h mid2 locale2 k2
    cases h
    by_cases hm : mid2 = mid ∧ locale2 = locale
    · obtain ⟨h1, h2⟩ := hm
      subst h1
      subst h2
      by_cases hk : k2 = k
      · subst hk
        simp [slotOf, lookupSlot]
      · simp [slotOf, lookupSlot, hk, Ne.symm hk]
    · have hif : ¬ (mid2 = mid ∧ locale2 = locale ∧ k2 = k) := fun hc => hm ⟨hc.1, hc.2.1⟩
      rw [if_neg hif]
      simp only [slotOf]
      rw [if_neg (fun hc => hm ⟨hc.1.symm, hc.2.symm⟩)]
  | cons r rest ih =>
    intro recs2 h mid2 locale2 k2
    rw [insertSlot] at h
    by_cases hm : r.identity = mid ∧ r.locale = locale
    · rw [if_pos hm] at h
      split at h
      · -- lookupSlot r.fields k = none: field slot appended
        cases h
        rename_i hls
        by_cases hm2 : mid2 = mid ∧ locale2 = locale
        · obtain ⟨h1, h2⟩ := hm2
          subst h1
          subst h2
          rw [slotOf, if_pos ⟨hm.1, hm.2⟩, slotOf, if_pos hm, lookupSlot_append]
          by_cases hk : k2 = k
          · subst hk
            rw [hls, Option.none_or, lookupSlot, if_pos rfl, if_pos ⟨rfl, rfl, rfl⟩]
          · rw [if_neg (fun hc => hk hc.2.2), lookupSlot, if_neg (fun hc => hk hc.symm),
              lookupSlot, Option.or_none]
        · have hif : ¬ (mid2 = mid ∧ locale2 = locale ∧ k2 = k) := fun hc => hm2 ⟨hc.1, hc.2.1⟩
          have hno : ¬ (r.identity = mid2 ∧ r.locale = locale2) :=
            fun hc => hm2 ⟨hc.1.symm.trans hm.1, hc.2.symm.trans hm.2⟩
          rw [if_neg hif, slotOf, if_neg hno, slotOf, if_neg hno]
      · -- lookupSlot r.fields k = some t2
        rename_i t2 hls
        split at h
        · -- t2 = t: unchanged
          cases h
          rename_i ht
          by_cases hm2 : mid2 = mid ∧ locale2 = locale
          · obtain ⟨h1, h2⟩ := hm2
            subst h1
            subst h2
            by_cases hk : k2 = k
            · subst hk
              rw [if_pos ⟨rfl, rfl, rfl⟩, slotOf, if_pos hm, hls, ht]
            · rw [if_neg (fun hc => hk hc.2.2)]
          · exact (if_neg (fun hc => hm2 ⟨hc.1, hc.2.1⟩)).symm
        · cases h
    · rw [if_neg hm] at h
      obtain ⟨recs3, hins, heq⟩ := except_map_ok _ _ _ h
      subst heq
      by_cases hno : r.identity = mid2 ∧ r.locale = locale2
      · have hif : ¬ (mid2 = mid ∧ locale2 = locale ∧ k2 = k) :=
          fun hc => hm ⟨hno.1.trans hc.1, hno.2.trans hc.2.1⟩
        rw [if_neg hif, slotOf, if_pos hno, slotOf, if_pos hno]
      · rw [slotOf, if_neg hno, ih recs3 hins mid2 locale2 k2, slotOf, if_neg hno]

theorem insertSlot_ok_of_compat (mid : ModuleIdentity) (locale : Str) (k : FieldKind) (t : Str) :
    ∀ recs, (slotOf recs mid locale k = none ∨ slotOf recs mid locale k = some t) →
      ∃ recs2, insertSlot mid locale k t recs = .ok recs2 := by
  intro recs
  induction recs with
  | nil =>
    intro hc
    exact ⟨_, rfl⟩
  | cons r rest ih =>
    intro hc
    rw [insertSlot]
    by_cases hm : r.identity = mid ∧ r.locale = locale
    · rw [if_pos hm]
      rw [slotOf, if_pos hm] at hc
      cases hls : lookupSlot r.fields k with
      | none => exact ⟨_, rfl⟩
      | some t2 =>
        rcases hc with hc | hc
        · rw [hls] at hc
          cases hc
        · rw [hls] at hc
          refine ⟨r :: rest, ?_⟩
          show (if t2 = t then Except.ok (r :: rest)
            else Except.error (ReconErr.ambiguousTranslation mid locale k)) = Except.ok (r :: rest)
          rw [if_pos (Option.some.inj hc)]
    · rw [if_neg hm]
      rw [slotOf, if_neg hm] at hc
      obtain ⟨recs3, h3⟩ := ih hc
      rw [h3]
      exact ⟨_, rfl⟩

theorem insertSlot_wf (mid : ModuleIdentity) (locale : Str) (k : FieldKind) (t : Str) :
    ∀ recs recs2, insertSlot mid locale k t recs = .ok recs2 → WFRecs recs →
      WFRecs recs2 ∧ ∀ p ∈ recPairs recs2, p ∈ recPairs recs ∨ p = (mid, locale) := by
  intro recs
  induction recs with
  | nil =>
    intro recs2 h hwf
    cases h
    refine ⟨⟨by simp [recPairs], ?_⟩, ?_⟩
    · intro r hr
      rw [List.mem_singleton] at hr
      subst hr
      exact ⟨by simp, by simp⟩
    · intro p hp
      simp only [recPairs, List.map_cons, List.map_nil, List.mem_singleton] at hp
      exact .inr hp
  | cons r rest ih =>
    intro recs2 h hwf
    have hndc := List.nodup_cons.mp (hwf.1 : ((r.identity, r.locale) :: recPairs rest).Nodup)
    rw [insertSlot] at h
    by_cases hm : r.identity = mid ∧ r.locale = locale
    · rw [if_pos hm] at h
      split at h
      · cases h
        rename_i hls
        refine ⟨⟨?_, ?_⟩, ?_⟩
        · rw [recPairs, List.map_cons, List.nodup_cons]
          exact ⟨hndc.1, hndc.2⟩
        · intro r2 hr2
          rcases List.mem_cons.mp hr2 with heq | hmem
          · subst heq
            obtain ⟨hne, hndf⟩ := hwf.2 r (by simp)
            refine ⟨by simp, ?_⟩
            rw [List.map_append]
            simp only [List.map_cons, List.map_nil]
            rw [List.nodup_append]
            refine ⟨hndf, by simp, ?_⟩
            intro a ha hb
            simp only [List.mem_singleton] at hb
            obtain ⟨p, hp, hpa⟩ := List.mem_map.mp ha
            exact ((lookupSlot_none_iff r.fields k).mp hls) p hp (hpa.trans hb)
          · exact hwf.2 r2 (by simp [hmem])
        · intro p hp
          rw [recPairs, List.map_cons] at hp
          rcases List.mem_cons.mp hp with heqp | hmem
          · subst heqp
            exact .inl (by rw [recPairs, List.map_cons]; exact List.mem_cons_self _ _)
          · exact .inl (by rw [recPairs, List.map_cons]; exact List.mem_cons_of_mem _ hmem)
      · split at h
        · cases h
          exact ⟨hwf, fun p hp => .inl hp⟩
        · cases h
    · rw [if_neg hm] at h
      obtain ⟨recs3, hins, heq⟩ := except_map_ok _ _ _ h
      subst heq
      have hwfrest : WFRecs rest :=
        ⟨hndc.2, fun r2 h2 => hwf.2 r2 (by simp [h2])⟩
      obtain ⟨⟨hnd3, hfld3⟩, hsub⟩ := ih recs3 hins hwfrest
      have hrpair : (r.identity, r.locale) ∉ recPairs recs3 := by
        intro hc
        rcases hsub _ hc with hin | heqp
        · exact hndc.1 hin
        · rw [Prod.mk.injEq] at heqp
          exact hm ⟨heqp.1, heqp.2⟩
      refine ⟨⟨?_, ?_⟩, ?_⟩
      · rw [recPairs, List.map_cons, List.nodup_cons]
        exact ⟨hrpair, hnd3⟩
      · intro r2 h2
        rcases List.mem_cons.mp h2 with heq2 | hmem
        · subst heq2
          exact hwf.2 r2 (by simp)
        · exact hfld3 r2 hmem
      · intro p hp
        rw [recPairs, List.map_cons] at hp
        rcases List.mem_cons.mp hp with heqp | hmem
        · subst heqp
          exact .inl (by rw [recPairs, List.map_cons]; exact List.mem_cons_self _ _)
        · rcases hsub p hmem with hin | heqp
          · exact .inl (by rw [recPairs, List.map_cons]; exact List.mem_cons_of_mem _ hin)
          · exact .inr heqp

theorem processLocs_cons (locale ttext l : Str) (ls : List Str) (recs : List TransRecord)
    (mid : ModuleIdentity) (k : FieldKind) (hdec : decode l = .ok (mid, k)) :
    processLocs locale ttext (l :: ls) recs =
      match insertSlot mid locale k ttext recs with
      | .error e => .error e
      | .ok recs2 => processLocs locale ttext ls recs2 := by
  rw [processLocs, processLoc, hdec]

theorem processLocs_spec (locale ttext key : Str) (mid : ModuleIdentity) (k : FieldKind)
    (hdec : decode key = .ok (mid, k)) :
    ∀ locs recs, (∀ l ∈ locs, l = key) → WFRecs recs →
      (slotOf recs mid locale k = none ∨ slotOf recs mid locale k = some ttext) →
      ∃ recs2, processLocs locale ttext locs recs = .ok recs2 ∧ WFRecs recs2 ∧
        (∀ p ∈ recPairs recs2, p ∈ recPairs recs ∨ p = (mid, locale)) ∧
        (∀ mid2 locale2 k2, slotOf recs2 mid2 locale2 k2 =
          if locs ≠ [] ∧ mid2 = mid ∧ locale2 = locale ∧ k2 = k then some ttext
          else slotOf recs mid2 locale2 k2) := by
  intro locs
  induction locs with
  | nil =>
    intro recs hall hwf hc
    refine ⟨recs, rfl, hwf, fun p hp => .inl hp, ?_⟩
    intro mid2 locale2 k2
    rw [if_neg (by simp)]
  | cons l ls ih =>
    intro recs hall hwf hc
    have hl : l = key := hall l (by simp)
    subst hl
    rw [processLocs_cons locale ttext l ls recs mid k hdec]
    obtain ⟨recs1, h1⟩ := insertSlot_ok_of_compat mid locale k ttext recs hc
    rw [h1]
    have hslot1 := insertSlot_slotOf mid locale k ttext recs recs1 h1
    obtain ⟨hwf1, hpairs1⟩ := insertSlot_wf mid locale k ttext recs recs1 h1 hwf
    have hc1 : slotOf recs1 mid locale k = none ∨ slotOf recs1 mid locale k = some ttext := by
      right
      rw [hslot1 mid locale k, if_pos ⟨rfl, rfl, rfl⟩]
    obtain ⟨recs2, h2, hwf2, hpairs2, hslot2⟩ :=
      ih recs1 (fun l2 hl2 => hall l2 (by simp [hl2])) hwf1 hc1
    refine ⟨recs2, h2, hwf2, ?_, ?_⟩
    · intro p hp
      rcases hpairs2 p hp with hin | heq
      · exact hpairs1 p hin
      · exact .inr heq
    · intro mid2 locale2 k2
      rw [hslot2 mid2 locale2 k2, hslot1 mid2 locale2 k2]
      by_cases hC : mid2 = mid ∧ locale2 = locale ∧ k2 = k
      · obtain ⟨hA, hB, hD⟩ := hC
        subst hA
        subst hB
        subst hD
        conv_rhs => rw [if_pos ⟨List.cons_ne_nil l ls, rfl, rfl, rfl⟩]
        by_cases hls : ls = []
        · rw [if_neg (show ¬ (ls ≠ [] ∧ mid2 = mid2 ∧ locale2 = locale2 ∧ k2 = k2) by
              simp [hls]), if_pos ⟨rfl, rfl, rfl⟩]
        · rw [if_pos ⟨hls, rfl, rfl, rfl⟩]
      · rw [if_neg (show ¬ (ls ≠ [] ∧ mid2 = mid ∧ locale2 = locale ∧ k2 = k) from
            fun hc2 => hC ⟨hc2.2.1, hc2.2.2.1, hc2.2.2.2⟩), if_neg hC,
          if_neg (show ¬ (l :: ls ≠ [] ∧ mid2 = mid ∧ locale2 = locale ∧ k2 = k) from
            fun hc2 => hC ⟨hc2.2.1, hc2.2.2.1, hc2.2.2.2⟩)]

theorem processTrans_spec (key : Str) (mid : ModuleIdentity) (k : FieldKind)
    (hdec : decode key = .ok (mid, k)) (locs : List Str)
    (hlocs : ∀ l ∈ locs, l = key) (hlocne : locs ≠ [])
    (t : Str → Str → Str) (hne : ∀ l, t key l ≠ []) :
    ∀ (locales : List Str) (recs : List TransRecord), WFRecs recs →
      (∀ l, slotOf recs mid l k = none ∨ slotOf recs mid l k = some (t key l)) →
      ∃ recs2, processTrans locs (locales.map (fun l => (l, t key l))) recs = .ok recs2 ∧
        WFRecs recs2 ∧
        (∀ p ∈ recPairs recs2, p ∈ recPairs recs ∨ ∃ l ∈ locales, p = (mid, l)) ∧
        (∀ mid2 l2 k2, slotOf recs2 mid2 l2 k2 =
          if mid2 = mid ∧ k2 = k ∧ l2 ∈ locales then some (t key l2)
          else slotOf recs mid2 l2 k2) := by
  intro locales
  induction locales with
  | nil =>
    intro recs hwf hc
    refine ⟨recs, rfl, hwf, fun p hp => .inl hp, ?_⟩
    intro mid2 l2 k2
    rw [if_neg (by simp)]
  | cons l ls ih =>
    intro recs hwf hc
    rw [List.map_cons, processTrans, if_neg (hne l)]
    obtain ⟨recs1, h1, hwf1, hpairs1, hslot1⟩ :=
      processLocs_spec l (t key l) key mid k hdec locs recs hlocs hwf (hc l)
    rw [h1]
    have hc1 : ∀ l2, slotOf recs1 mid l2 k = none ∨ slotOf recs1 mid l2 k = some (t key l2) := by
      intro l2
      rw [hslot1 mid l2 k]
      by_cases hll : l2 = l
      · subst hll
        right
        rw [if_pos ⟨hlocne, rfl, rfl, rfl⟩]
      · rw [if_neg (show ¬ (locs ≠ [] ∧ mid = mid ∧ l2 = l ∧ k = k) from
          fun hc2 => hll hc2.2.2.1)]
        exact hc l2
    obtain ⟨recs2, h2, hwf2, hpairs2, hslot2⟩ := ih recs1 hwf1 hc1
    refine ⟨recs2, h2, hwf2, ?_, ?_⟩
    · intro p hp
      rcases hpairs2 p hp with hin | ⟨l2, hl2, heq⟩
      · rcases hpairs1 p hin with hin2 | heq2
        · exact .inl hin2
        · exact .inr ⟨l, by simp, heq2⟩
      · exact .inr ⟨l2, by simp [hl2], heq⟩
    · intro mid2 l2 k2
      rw [hslot2 mid2 l2 k2, hslot1 mid2 l2 k2]
      by_cases hC : mid2 = mid ∧ k2 = k
      · obtain ⟨hA, hB⟩ := hC
        subst hA
        subst hB
        by_cases hin : l2 ∈ ls
        · conv_rhs => rw [if_pos ⟨rfl, rfl, List.mem_cons_of_mem l hin⟩]
          rw [if_pos ⟨rfl, rfl, hin⟩]
        · rw [if_neg (show ¬ (mid2 = mid2 ∧ k2 = k2 ∧ l2 ∈ ls) from fun hc2 => hin hc2.2.2)]
          by_cases hll : l2 = l
          · subst hll
            conv_rhs => rw [if_pos ⟨rfl, rfl, List.mem_cons_self l2 ls⟩]
            rw [if_pos ⟨hlocne, rfl, rfl, rfl⟩]
          · rw [if_neg (show ¬ (locs ≠ [] ∧ mid2 = mid2 ∧ l2 = l ∧ k2 = k2) from
              fun hc2 => hll hc2.2.2.1),
              if_neg (show ¬ (mid2 = mid2 ∧ k2 = k2 ∧ l2 ∈ l :: ls) from
                fun hc2 => (List.mem_cons.mp hc2.2.2).elim hll hin)]
      · rw [if_neg (show ¬ (mid2 = mid ∧ k2 = k ∧ l2 ∈ ls) from
            fun hc2 => hC ⟨hc2.1, hc2.2.1⟩),
          if_neg (show ¬ (locs ≠ [] ∧ mid2 = mid ∧ l2 = l ∧ k2 = k) from
            fun hc2 => hC ⟨hc2.2.1, hc2.2.2.2⟩),
          if_neg (show ¬ (mid2 = mid ∧ k2 = k ∧ l2 ∈ l :: ls) from
            fun hc2 => hC ⟨hc2.1, hc2.2.1⟩)]

theorem entrySlot_cons_ok (locales : List Str) (t : Str → Str → Str) (e : CatalogEntry)
    (es : List CatalogEntry) (mid : ModuleIdentity) (locale : Str) (k : FieldKind)
    (mide : ModuleIdentity) (ke : FieldKind) (hdec : decode e.key = .ok (mide, ke)) :
    entrySlot locales t (e :: es) mid locale k =
      if mide = mid ∧ ke = k then
        (if locale ∈ locales then some (t e.key locale) else none)
      else entrySlot locales t es mid locale k := by
  rw [entrySlot, hdec]

theorem entrySlot_cons_err (locales : List Str) (t : Str → Str → Str) (e : CatalogEntry)
    (es : List CatalogEntry) (mid : ModuleIdentity) (locale : Str) (k : FieldKind)
    (err : CodecErr) (hdec : decode e.key = .error err) :
    entrySlot locales t (e :: es) mid locale k = entrySlot locales t es mid locale k := by
  rw [entrySlot, hdec]

theorem entrySlot_none (locales : List Str) (t : Str → Str → Str) :
    ∀ es (mid : ModuleIdentity) (locale : Str) (k : FieldKind),
      (∀ e ∈ es, ∀ mid2 k2, decode e.key = .ok (mid2, k2) → ¬ (mid2 = mid ∧ k2 = k)) →
      entrySlot locales t es mid locale k = none := by
  intro es
  induction es with
  | nil =>
    intro mid locale k h
    rfl
  | cons e es2 ih =>
    intro mid locale k h
    cases hdec : decode e.key with
    | ok x =>
      obtain ⟨mid2, k2⟩ := x
      rw [entrySlot_cons_ok locales t e es2 mid locale k mid2 k2 hdec,
        if_neg (h e (by simp) mid2 k2 hdec)]
      exact ih mid locale k (fun e2 h2 => h e2 (by simp [h2]))
    | error err =>
      rw [entrySlot_cons_err locales t e es2 mid locale k err hdec]
      exact ih mid locale k (fun e2 h2 => h e2 (by simp [h2]))

theorem reconFold_spec (locales : List Str) (t : Str → Str → Str)
    (hne : ∀ key l, t key l ≠ []) :
    ∀ entries recs, EntriesWF locales t entries → WFRecs recs →
      (∀ e ∈ entries, ∀ mid k, decode e.key = .ok (mid, k) → ∀ l, slotOf recs mid l k = none) →
      ∃ recs2, reconFold entries recs = .ok recs2 ∧ WFRecs recs2 ∧
        (∀ mid l k, slotOf recs2 mid l k =
          (slotOf recs mid l k).or (entrySlot locales t entries mid l k)) := by
  intro entries
  induction entries with
  | nil =>
    intro recs hewf hwf hdisj
    refine ⟨recs, rfl, hwf, ?_⟩
    intro mid l k
    rw [entrySlot, Option.or_none]
  | cons e es ih =>
    intro recs hewf hwf hdisj
    obtain ⟨hkeys, hprops⟩ := hewf
    obtain ⟨⟨mide, ke, hdece⟩, hlocne, hlocall, htre⟩ := hprops e (by simp)
    rw [reconFold, htre]
    obtain ⟨recs1, h1, hwf1, hpairs1, hslot1⟩ :=
      processTrans_spec e.key mide ke hdece e.locations hlocall hlocne t (fun l => hne e.key l)
        locales recs hwf (fun l => .inl (hdisj e (by simp) mide ke hdece l))
    rw [h1]
    have hkeysc := List.nodup_cons.mp hkeys
    have hewf2 : EntriesWF locales t es := ⟨hkeysc.2, fun e2 h2 => hprops e2 (by simp [h2])⟩
    have hother : ∀ e2 ∈ es, ∀ mid k, decode e2.key = .ok (mid, k) → ¬ (mid = mide ∧ k = ke) := by
      intro e2 h2 mid k hdec2 hc
      have h1s := (decode_sound e.key mide ke hdece).2.2
      have h2s := (decode_sound e2.key mid k hdec2).2.2
      apply hkeysc.1
      show e.key ∈ List.map (fun e => e.key) es
      rw [← h1s, ← hc.1, ← hc.2, h2s]
      exact List.mem_map_of_mem (fun e => e.key) h2
    have hdisj2 : ∀ e2 ∈ es, ∀ mid k, decode e2.key = .ok (mid, k) →
        ∀ l, slotOf recs1 mid l k = none := by
      intro e2 h2 mid k hdec2 l
      rw [hslot1 mid l k,
        if_neg (show ¬ (mid = mide ∧ k = ke ∧ l ∈ locales) from
          fun hc => hother e2 h2 mid k hdec2 ⟨hc.1, hc.2.1⟩)]
      exact hdisj e2 (by simp [h2]) mid k hdec2 l
    obtain ⟨recs2, h2, hwf2, hslot2⟩ := ih recs1 hewf2 hwf1 hdisj2
    refine ⟨recs2, h2, hwf2, ?_⟩
    intro mid l k
    rw [hslot2 mid l k, hslot1 mid l k,
      entrySlot_cons_ok locales t e es mid l k mide ke hdece]
    by_cases hC : mid = mide ∧ k = ke
    · obtain ⟨hA, hB⟩ := hC
      subst hA
      subst hB
      have hnone : slotOf recs mid l k = none := hdisj e (by simp) mid k hdece l
      conv_rhs => rw [if_pos ⟨rfl, rfl⟩]
      by_cases hin : l ∈ locales
      · rw [if_pos ⟨rfl, rfl, hin⟩]
        conv_rhs => rw [if_pos hin]
        rw [hnone, Option.none_or]
        rfl
      · rw [if_neg (show ¬ (mid = mid ∧ k = k ∧ l ∈ locales) from fun hc => hin hc.2.2)]
        conv_rhs => rw [if_neg hin]
        rw [hnone, Option.none_or, Option.none_or]
        exact entrySlot_none locales t es mid l k hother
    · rw [if_neg (show ¬ (mid = mide ∧ k = ke ∧ l ∈ locales) from
          fun hc => hC ⟨hc.1, hc.2.1⟩),
        if_neg (show ¬ (mide = mid ∧ ke = k) from
          fun hc => hC ⟨hc.1.symm, hc.2.symm⟩)]

theorem entrySlot_some_iff (locales : List Str) (t : Str → Str → Str) :
    ∀ es : List CatalogEntry,
      (∀ e1 ∈ es, ∀ e2 ∈ es, ∀ (m : ModuleIdentity) (k2 : FieldKind),
        decode e1.key = .ok (m, k2) → decode e2.key = .ok (m, k2) → e1 = e2) →
      ∀ (mid : ModuleIdentity) (locale : Str) (k : FieldKind) (v : Str),
        (entrySlot locales t es mid locale k = some v ↔
          ∃ e ∈ es, decode e.key = .ok (mid, k) ∧ locale ∈ locales ∧ v = t e.key locale) := by
  intro es
  induction es with
  | nil =>
    intro hu mid locale k v
    constructor
    · intro h
      cases h
    · rintro ⟨e, he, _⟩
      cases he
  | cons e es2 ih =>
    intro hu mid locale k v
    have hu2 : ∀ e1 ∈ es2, ∀ e2 ∈ es2, ∀ (m : ModuleIdentity) (k2 : FieldKind),
        decode e1.key = .ok (m, k2) → decode e2.key = .ok (m, k2) → e1 = e2 :=
      fun e1 h1 e2 h2 m k2 ha hb => hu e1 (by simp [h1]) e2 (by simp [h2]) m k2 ha hb
    cases hdec : decode e.key with
    | ok x =>
      obtain ⟨m2, k2⟩ := x
      rw [entrySlot_cons_ok locales t e es2 mid locale k m2 k2 hdec]
      by_cases hm : m2 = mid ∧ k2 = k
      · obtain ⟨hA, hB⟩ := hm
        subst hA
        subst hB
        constructor
        · intro h
          rw [if_pos ⟨rfl, rfl⟩] at h
          by_cases hin : locale ∈ locales
          · rw [if_pos hin] at h
            exact ⟨e, by simp, hdec, hin, (Option.some.inj h).symm⟩
          · rw [if_neg hin] at h
            cases h
        · rintro ⟨e2, he2, hdec2, hin, hv⟩
          rw [if_pos ⟨rfl, rfl⟩, if_pos hin]
          rcases List.mem_cons.mp he2 with heq | hmem
          · subst heq
            rw [hv]
          · have heq2 : e2 = e := hu e2 (by simp [hmem]) e (by simp) m2 k2 hdec2 hdec
            subst heq2
            rw [hv]
      · rw [if_neg hm, ih hu2 mid locale k v]
        constructor
        · rintro ⟨e2, he2, rest⟩
          exact ⟨e2, by simp [he2], rest⟩
        · rintro ⟨e2, he2, hdec2, hin, hv⟩
          rcases List.mem_cons.mp he2 with heq | hmem
          · subst heq
            rw [hdec] at hdec2
            cases hdec2
            exact absurd ⟨rfl, rfl⟩ hm
          · exact ⟨e2, hmem, hdec2, hin, hv⟩
    | error err =>
      rw [entrySlot_cons_err locales t e es2 mid locale k err hdec, ih hu2 mid locale k v]
      constructor
      · rintro ⟨e2, he2, rest⟩
        exact ⟨e2, by simp [he2], rest⟩
      · rintro ⟨e2, he2, hdec2, hin, hv⟩
        rcases List.mem_cons.mp he2 with heq | hmem
        · subst heq
          rw [hdec] at hdec2
          cases hdec2
        · exact ⟨e2, hmem, hdec2, hin, hv⟩

theorem pair_mem_iff_slot (recs : List TransRecord) (hwf : WFRecs recs)
    (mid : ModuleIdentity) (locale : Str) :
    ((mid, locale) ∈ recPairs recs ↔ ∃ k v, slotOf recs mid locale k = some v) := by
  constructor
  · intro hp
    obtain ⟨r, hr, hpr⟩ := List.mem_map.mp hp
    rw [Prod.mk.injEq] at hpr
    obtain ⟨h1, h2⟩ := hpr
    subst h1
    subst h2
    have hlk := lookupRec_of_mem recs hwf.1 r hr
    obtain ⟨hne, hndf⟩ := hwf.2 r hr
    cases hf : r.fields with
    | nil => exact absurd hf hne
    | cons p ps =>
      refine ⟨p.1, p.2, ?_⟩
      rw [slotOf_eq_lookupRec, hlk]
      show lookupSlot r.fields p.1 = some p.2
      exact lookupSlot_of_mem r.fields hndf p.1 p.2 (by rw [hf]; exact List.mem_cons_self p ps)
  · rintro ⟨k, v, hs⟩
    rw [slotOf_eq_lookupRec] at hs
    cases hlr : lookupRec recs mid locale with
    | none =>
      rw [hlr] at hs
      cases hs
    | some r =>
      obtain ⟨hm, h1, h2⟩ := lookupRec_mem recs mid locale r hlr
      rw [← h1, ← h2]
      exact List.mem_map_of_mem _ hm

theorem fields_mem_iff_slot (recs : List TransRecord) (hwf : WFRecs recs)
    (r : TransRecord) (hr : r ∈ recs) (k : FieldKind) (v : Str) :
    ((k, v) ∈ r.fields ↔ slotOf recs r.identity r.locale k = some v) := by
  have hlk := lookupRec_of_mem recs hwf.1 r hr
  obtain ⟨hne, hndf⟩ := hwf.2 r hr
  rw [slotOf_eq_lookupRec, hlk]
  show (k, v) ∈ r.fields ↔ lookupSlot r.fields k = some v
  constructor
  · intro hm
    exact lookupSlot_of_mem r.fields hndf k v hm
  · intro hs
    exact lookupSlot_mem r.fields k v hs

theorem lookupRec_perm (recs recs2 : List TransRecord) (hp : recs.Perm recs2)
    (hnd : (recPairs recs).Nodup) (mid : ModuleIdentity) (locale : Str) :
    lookupRec recs mid locale = lookupRec recs2 mid locale := by
  have hnd2 : (recPairs recs2).Nodup := ((hp.map _).nodup_iff).mp hnd
  cases h1 : lookupRec recs mid locale with
  | none =>
    have hall := (lookupRec_none_iff recs mid locale).mp h1
    exact ((lookupRec_none_iff recs2 mid locale).mpr
      (fun r hr => hall r (hp.mem_iff.mpr hr))).symm
  | some r =>
    obtain ⟨hm, hid, hloc⟩ := lookupRec_mem recs mid locale r h1
    subst hid
    subst hloc
    exact (lookupRec_of_mem recs2 hnd2 r (hp.mem_iff.mp hm)).symm

theorem slotOf_perm (recs recs2 : List TransRecord) (hp : recs.Perm recs2)
    (hnd : (recPairs recs).Nodup) (mid : ModuleIdentity) (locale : Str) (k : FieldKind) :
    slotOf recs mid locale k = slotOf recs2 mid locale k := by
  rw [slotOf_eq_lookupRec, slotOf_eq_lookupRec, lookupRec_perm recs recs2 hp hnd mid locale]

theorem WFRecs_perm (recs recs2 : List TransRecord) (hp : recs.Perm recs2)
    (hwf : WFRecs recs) : WFRecs recs2 :=
  ⟨((hp.map _).nodup_iff).mp hwf.1, fun r hr => hwf.2 r (hp.mem_iff.mpr hr)⟩

theorem firstSrc_some (fields : List TranslatableField) (k : Str) (s : Str) :
    firstSrc fields k = some s →
      ∃ f ∈ fields, isBlank f.text = false ∧ fieldKey f = k ∧ f.text = s := by
  induction fields with
  | nil => intro h; cases h
  | cons f fs ih =>
    intro h
    rw [firstSrc] at h
    split at h
    · cases h
      rename_i hc
      exact ⟨f, by simp, by simpa using hc.1, hc.2, rfl⟩
    · obtain ⟨f2, hm, rest⟩ := ih h
      exact ⟨f2, by simp [hm], rest⟩

theorem injectAll_keys (locales : List Str) (t : Str → Str → Str) (cat : List CatalogEntry) :
    (injectAll locales t cat).map (fun e => e.key) = cat.map (fun e => e.key) := by
  rw [injectAll, List.map_map]
  rfl

/-! ## C2: the extraction / reconstruction round trip -/

/-- C2: for every module index (with delimiter-free identities), building
the catalog, injecting a non-empty translated text for every entry and
every locale of a chosen set, and reconstructing yields a TranslationSet
with exactly one record per (module identity, locale) pair that received a
translation — the pairs are duplicate-free and are precisely the (identity
with a non-blank field) × (chosen locale) combinations — and each record's
field values are exactly the injected texts. -/
theorem C2_roundtrip_reconstruction (fields : List TranslatableField) (locales : List Str)
    (t : Str → Str → Str) (cat : List CatalogEntry)
    (hleg : ∀ f ∈ fields, LegalField f)
    (hne : ∀ key l, t key l ≠ [])
    (hcat : build_catalog fields = .ok cat) :
    ∃ recs, reconstruct (injectAll locales t cat) = .ok recs ∧
      (recPairs recs).Nodup ∧
      (∀ (mid : ModuleIdentity) (l : Str), ((mid, l) ∈ recPairs recs ↔
        (l ∈ locales ∧ ∃ f ∈ fields, f.identity = mid ∧ isBlank f.text = false))) ∧
      (∀ r ∈ recs, ∀ (k : FieldKind) (v : Str), ((k, v) ∈ r.fields ↔
        ((∃ f ∈ fields, f.identity = r.identity ∧ f.kind = k ∧ isBlank f.text = false) ∧
          v = t (encode r.identity k) r.locale))) := by
  obtain ⟨⟨hndkeys, hentprops⟩, hkeysrc, hall⟩ := build_catalog_good fields cat hcat
  set entries := injectAll locales t cat with hentries
  have hfield : ∀ e0 ∈ cat, ∃ f ∈ fields, isBlank f.text = false ∧ fieldKey f = e0.key ∧
      f.text = e0.source := by
    intro e0 he0
    have hlk := lookupKey_of_mem cat hndkeys e0 he0
    have hks : keySrc cat e0.key = some e0.source := by
      rw [keySrc, hlk]
      rfl
    rw [hkeysrc e0.key] at hks
    exact firstSrc_some fields e0.key e0.source hks
  have hdec : ∀ e0 ∈ cat, ∃ mid k, decode e0.key = .ok (mid, k) := by
    intro e0 he0
    obtain ⟨f, hf, hnb, hkey, hsrc⟩ := hfield e0 he0
    obtain ⟨hidleg, hkleg⟩ := hleg f hf
    refine ⟨f.identity, f.kind, ?_⟩
    rw [← hkey]
    exact decode_encode f.identity f.kind hidleg hkleg
  have hewf : EntriesWF locales t entries := by
    refine ⟨?_, ?_⟩
    · rw [hentries, injectAll_keys]
      exact hndkeys
    · intro e2 he2
      rw [hentries, injectAll] at he2
      obtain ⟨e0, he0, heq⟩ := List.mem_map.mp he2
      subst heq
      obtain ⟨htr, hlocne, hlocall⟩ := hentprops e0 he0
      obtain ⟨mid, k, hdec0⟩ := hdec e0 he0
      exact ⟨⟨mid, k, hdec0⟩, hlocne, hlocall, rfl⟩
  have hwfnil : WFRecs [] := ⟨List.nodup_nil, by simp⟩
  obtain ⟨recs0, hfold, hwf0, hchar0⟩ := reconFold_spec locales t hne entries [] hewf hwfnil
    (fun e2 he2 mid k hd l => rfl)
  have hrecon : reconstruct entries = .ok (List.insertionSort recLe recs0) := by
    rw [reconstruct, hfold]
    rfl
  set recs := List.insertionSort recLe recs0 with hrecs
  have hp : recs.Perm recs0 := List.perm_insertionSort recLe recs0
  have hwf : WFRecs recs := WFRecs_perm recs0 recs hp.symm hwf0
  have hslots : ∀ (mid : ModuleIdentity) (l : Str) (k : FieldKind),
      slotOf recs mid l k = entrySlot locales t entries mid l k := by
    intro mid l k
    rw [slotOf_perm recs recs0 hp hwf.1 mid l k, hchar0 mid l k]
    rfl
  have huniq : ∀ e1 ∈ entries, ∀ e2 ∈ entries, ∀ (m : ModuleIdentity) (k2 : FieldKind),
      decode e1.key = .ok (m, k2) → decode e2.key = .ok (m, k2) → e1 = e2 := by
    intro e1 h1 e2 h2 m k2 ha hb
    have ha2 := (decode_sound e1.key m k2 ha).2.2
    have hb2 := (decode_sound e2.key m k2 hb).2.2
    have hkeq : e1.key = e2.key := by rw [← ha2, ← hb2]
    exact List.inj_on_of_nodup_map hewf.1 h1 h2 hkeq
  have hiff := entrySlot_some_iff locales t entries huniq
  have hentmem : ∀ (mid : ModuleIdentity) (k : FieldKind),
      ((∃ e ∈ entries, decode e.key = .ok (mid, k)) ↔
        (∃ f ∈ fields, f.identity = mid ∧ f.kind = k ∧ isBlank f.text = false)) := by
    intro mid k
    constructor
    · rintro ⟨e2, he2, hd⟩
      rw [hentries, injectAll] at he2
      obtain ⟨e0, he0, heq⟩ := List.mem_map.mp he2
      subst heq
      obtain ⟨f, hf, hnb, hkey, hsrc⟩ := hfield e0 he0
      obtain ⟨hidleg, hkleg⟩ := hleg f hf
      have hdf : decode e0.key = .ok (f.identity, f.kind) := by
        rw [← hkey]
        exact decode_encode f.identity f.kind hidleg hkleg
      have hde : decode e0.key = .ok (mid, k) := hd
      rw [hdf] at hde
      cases hde
      exact ⟨f, hf, rfl, rfl, hnb⟩
    · rintro ⟨f, hf, hid, hkind, hnb⟩
      have hks := hall f hf hnb
      rw [keySrc] at hks
      cases hlk : lookupKey cat (fieldKey f) with
      | none =>
        rw [hlk] at hks
        cases hks
      | some e0 =>
        obtain ⟨he0mem, he0key⟩ := lookupKey_mem cat (fieldKey f) e0 hlk
        refine ⟨{ e0 with translations := locales.map (fun l => (l, t e0.key l)) }, ?_, ?_⟩
        · rw [hentries, injectAll]
          exact List.mem_map_of_mem _ he0mem
        · show decode e0.key = .ok (mid, k)
          rw [he0key, ← hid, ← hkind]
          obtain ⟨hidleg, hkleg⟩ := hleg f hf
          exact decode_encode f.identity f.kind hidleg hkleg
  refine ⟨recs, hrecon, hwf.1, ?_, ?_⟩
  · intro mid l
    constructor
    · intro hpmem
      obtain ⟨kk, vv, hsv⟩ := (pair_mem_iff_slot recs hwf mid l).mp hpmem
      rw [hslots mid l kk] at hsv
      obtain ⟨e2, he2, hd, hin, hv⟩ := (hiff mid l kk vv).mp hsv
      refine ⟨hin, ?_⟩
      obtain ⟨f, hf, hid, hkind, hnb⟩ := (hentmem mid kk).mp ⟨e2, he2, hd⟩
      exact ⟨f, hf, hid, hnb⟩
    · rintro ⟨hin, f, hf, hid, hnb⟩
      obtain ⟨e2, he2, hd⟩ := (hentmem mid f.kind).mpr ⟨f, hf, hid, rfl, hnb⟩
      have hsome : entrySlot locales t entries mid l f.kind = some (t e2.key l) :=
        (hiff mid l f.kind (t e2.key l)).mpr ⟨e2, he2, hd, hin, rfl⟩
      refine (pair_mem_iff_slot recs hwf mid l).mpr ⟨f.kind, t e2.key l, ?_⟩
      rw [hslots mid l f.kind]
      exact hsome
  · intro r hr k v
    rw [fields_mem_iff_slot recs hwf r hr k v, hslots r.identity r.locale k,
      hiff r.identity r.locale k v]
    constructor
    · rintro ⟨e2, he2, hd, hin, hv⟩
      refine ⟨(hentmem r.identity k).mp ⟨e2, he2, hd⟩, ?_⟩
      have hekey : e2.key = encode r.identity k := ((decode_sound e2.key r.identity k hd).2.2).symm
      rw [hv, hekey]
    · rintro ⟨⟨f, hf, hid, hkind, hnb⟩, hv⟩
      obtain ⟨e2, he2, hd⟩ := (hentmem r.identity k).mpr ⟨f, hf, hid, hkind, hnb⟩
      have hin : r.locale ∈ locales := by
        have hpm : (r.identity, r.locale) ∈ recPairs recs := List.mem_map_of_mem _ hr
        obtain ⟨kk, vv, hsv⟩ := (pair_mem_iff_slot recs hwf r.identity r.locale).mp hpm
        rw [hslots r.identity r.locale kk] at hsv
        obtain ⟨_, _, _, hin2, _⟩ := (hiff r.identity r.locale kk vv).mp hsv
        exact hin2
      refine ⟨e2, he2, hd, hin, ?_⟩
      have hekey : e2.key = encode r.identity k := ((decode_sound e2.key r.identity k hd).2.2).symm
      rw [hv, hekey]

/-- Witness for C2: the example index with locale `fr` and a concrete
injected-translation assignment. -/
theorem C2_witness :
    ∃ recs, reconstruct (injectAll (('f' :: 'r' :: []) :: []) exAssign exCat) = .ok recs ∧
      (recPairs recs).Nodup ∧
      (∀ (mid : ModuleIdentity) (l : Str), ((mid, l) ∈ recPairs recs ↔
        (l ∈ (('f' :: 'r' :: []) :: []) ∧
          ∃ f ∈ exFields, f.identity = mid ∧ isBlank f.text = false))) ∧
      (∀ r ∈ recs, ∀ (k : FieldKind) (v : Str), ((k, v) ∈ r.fields ↔
        ((∃ f ∈ exFields, f.identity = r.identity ∧ f.kind = k ∧ isBlank f.text = false) ∧
          v = exAssign (encode r.identity k) r.locale))) :=
  C2_roundtrip_reconstruction exFields (('f' :: 'r' :: []) :: []) exAssign exCat
    (by decide) (fun key l => List.cons_ne_nil 'T' (key ++ l)) (by decide)
